import Mathlib

/-!
Verification development for the qrx shell core: a shallow embedding of the
grammar (sys/grammar.js, unnamed part_003 revision), the parser wrapper
(sys/parser.js), the AST executor (sys/engine/AstExecutor.js, first revision
in the file), the kernel builtins and path resolution (sys/kernel.js,
sys/util/path.js), and the command implementations needed as concrete
registry entries (sys/cmd/echo.js, sys/cmd/cat.js).

Conventions of the embedding:
- JS strings are Lean Strings; character-level work uses List Char.
- JS numbers holding exit statuses are Int.
- Async execution is sequential in the source (every await is awaited in
  program order), so the executor is a state-passing function.  Each
  execution function returns (new kernel state, text written to the ambient
  output sink, payload).  The save/restore capture of kernel.write/writeln
  around a command invocation is modelled denotationally: a command's writes
  are returned as a string and the command case of the executor decides
  whether they become the node's captured stdout or are dropped.
- The external filesystem (LightningFS pfs) is modelled as an association
  list of file contents plus an oracle saying which paths fail on write;
  readFile failures are only ever observed through .catch handlers in the
  modelled code, so a missing key models them.
- The nearley grammar has no lexer; its multi-character literals stand for
  their character sequences, and each charset token matches exactly one
  character (so the grammar's mandatory-whitespace symbol matches one
  whitespace character, while the optional-whitespace rule is a
  left-recursive run).  A nearley postprocessor rejects a derivation only
  by returning the reject token; the IDENTIFIER postprocessor instead
  returns null for a reserved keyword (its comment notwithstanding), so
  the derivation completes and the command node's name is the null value.
  That null name is represented here by the empty string: no successful
  bareword is empty, and the executor only ever tests the name for JS
  falsiness, under which null and the empty string agree.  The embedding
  is a backtracking recognizer of the same rules; it tracks the furthest
  input position any derivation reached, so that a line whose characters
  are all consumable but which has no complete parse yields the empty
  result list (nearley: parser.results is empty), while a line rejected at
  a character yields an error (nearley: feed throws), matching the two
  non-success outcomes of sys/parser.js.  The text of nearley's feed-error
  report is not reconstructed; the error node's message is a stand-in
  about which nothing is claimed.
-/

/-! ## Path resolution (sys/util/path.js resolvePath, also Kernel.resolvePath) -/

/-- Split a character list on the slash character, exactly like the JS
String.split with a single-character separator: the result always has one
more element than the number of separators, and empty segments are kept. -/
def splitSlash : List Char → List (List Char)
  | [] => [[]]
  | c :: t =>
    if c = '/' then [] :: splitSlash t
    else ((c :: (splitSlash t).headI) :: (splitSlash t).tail)

/-- Join segments with slashes, exactly like the JS Array.join with a
one-character separator. -/
def joinSlash : List (List Char) → List Char
  | [] => []
  | [x] => x
  | x :: y :: t => x ++ '/' :: joinSlash (y :: t)

/-- One step of the segment-resolution loop of resolvePath: a dot-dot pops
(never past the root), a dot or an empty segment is skipped, anything else
is pushed. -/
def segStep (acc : List (List Char)) (part : List Char) : List (List Char) :=
  if part = ['.', '.'] then acc.dropLast
  else if part = ['.'] ∨ part = [] then acc
  else acc ++ [part]

/-- The segment-resolution loop of resolvePath. -/
def resolveSegs (parts : List (List Char)) : List (List Char) :=
  parts.foldl segStep []

/-- Character-level core of resolvePath: pick the full path (absolute paths
ignore the cwd, relative ones are prefixed with cwd and a slash), split on
slashes, run the segment loop, and re-join behind a leading slash. -/
def resolveCore (pathL cwdL : List Char) : List Char :=
  let full :=
    match pathL with
    | '/' :: _ => pathL
    | _ => cwdL ++ '/' :: pathL
  '/' :: joinSlash (resolveSegs (splitSlash full))

/-- resolvePath from sys/util/path.js (the Kernel method of sys/kernel.js is
the same algorithm applied to this.cwd).  A falsy (empty) path returns the
cwd unchanged. -/
def resolvePath (path cwd : String) : String :=
  if path = "" then cwd
  else String.mk (resolveCore path.data cwd.data)

/-- A well-formed path segment: nonempty, not a dot, not a dot-dot, and
containing no slash. -/
def goodSeg (s : List Char) : Prop :=
  s ≠ [] ∧ s ≠ ['.'] ∧ s ≠ ['.', '.'] ∧ '/' ∉ s

instance (s : List Char) : Decidable (goodSeg s) := by
  unfold goodSeg; infer_instance

/-! ## AST model (part_003 grammar postprocessors / sys/engine/AstExecutor.js) -/

/-- Redirection mode: the grammar produces the strings overwrite and append. -/
inductive RedirMode where
  | overwrite
  | append
deriving Repr, DecidableEq

/-- The redirection modifier attached to a node. -/
structure Redirection where
  mode : RedirMode
  file : String
deriving Repr, DecidableEq

mutual
/-- The tagged AST produced by the grammar's postprocessors.  Every node
carries the two optional modifiers that the JS object spreads attach
(redirection, background); absence of an else branch is the ifThen
constructor, presence the ifElse constructor (JS: else_branch null or a
list). -/
inductive ASTNode where
  | command (name : String) (args : List String)
      (redirection : Option Redirection) (background : Bool)
  | pipeline (src : ASTNode) (dst : ASTNode)
      (redirection : Option Redirection) (background : Bool)
  | logicalAnd (left : ASTNode) (right : ASTNode)
      (redirection : Option Redirection) (background : Bool)
  | logicalOr (left : ASTNode) (right : ASTNode)
      (redirection : Option Redirection) (background : Bool)
  | group (commands : NodeList)
      (redirection : Option Redirection) (background : Bool)
  | ifThen (cond : ASTNode) (thenB : NodeList)
      (redirection : Option Redirection) (background : Bool)
  | ifElse (cond : ASTNode) (thenB : NodeList) (elseB : NodeList)
      (redirection : Option Redirection) (background : Bool)
  | error (message : String)
      (redirection : Option Redirection) (background : Bool)
deriving Repr, DecidableEq

/-- A list of AST nodes, mutual with ASTNode so that the executor can be
defined by mutual structural recursion. -/
inductive NodeList where
  | nil
  | cons (head : ASTNode) (tail : NodeList)
deriving Repr, DecidableEq
end

/-- Convert a plain list of nodes (as the parser accumulates them) into the
mutual NodeList used inside group and if nodes. -/
def ofList : List ASTNode → NodeList
  | [] => .nil
  | h :: t => .cons h (ofList t)

/-- The redirection modifier of a node. -/
def ASTNode.redirection : ASTNode → Option Redirection
  | .command _ _ r _ => r
  | .pipeline _ _ r _ => r
  | .logicalAnd _ _ r _ => r
  | .logicalOr _ _ r _ => r
  | .group _ r _ => r
  | .ifThen _ _ r _ => r
  | .ifElse _ _ _ r _ => r
  | .error _ r _ => r

/-- The background modifier of a node. -/
def ASTNode.background : ASTNode → Bool
  | .command _ _ _ b => b
  | .pipeline _ _ _ b => b
  | .logicalAnd _ _ _ b => b
  | .logicalOr _ _ _ b => b
  | .group _ _ b => b
  | .ifThen _ _ _ b => b
  | .ifElse _ _ _ _ b => b
  | .error _ _ b => b

/-- The object spread that attaches (or replaces) a redirection on a node. -/
def ASTNode.setRedirection : ASTNode → Option Redirection → ASTNode
  | .command n a _ b, r => .command n a r b
  | .pipeline s d _ b, r => .pipeline s d r b
  | .logicalAnd x y _ b, r => .logicalAnd x y r b
  | .logicalOr x y _ b, r => .logicalOr x y r b
  | .group c _ b, r => .group c r b
  | .ifThen c t _ b, r => .ifThen c t r b
  | .ifElse c t e _ b, r => .ifElse c t e r b
  | .error m _ b, r => .error m r b

/-- The object spread that sets the background flag on a node. -/
def ASTNode.setBackground : ASTNode → Bool → ASTNode
  | .command n a r _, b => .command n a r b
  | .pipeline s d r _, b => .pipeline s d r b
  | .logicalAnd x y r _, b => .logicalAnd x y r b
  | .logicalOr x y r _, b => .logicalOr x y r b
  | .group c r _, b => .group c r b
  | .ifThen c t r _, b => .ifThen c t r b
  | .ifElse c t e r _, b => .ifElse c t e r b
  | .error m r _, b => .error m r b

/-- The reserved words that the grammar's IDENTIFIER rule refuses as command
names. -/
def reservedKeywords : List String := ["if", "then", "else", "fi"]

mutual
/-- True when no command node anywhere in the tree has a reserved word as
its name. -/
def reservedFreeN : ASTNode → Bool
  | .command n _ _ _ => !(reservedKeywords.contains n)
  | .pipeline s d _ _ => reservedFreeN s && reservedFreeN d
  | .logicalAnd x y _ _ => reservedFreeN x && reservedFreeN y
  | .logicalOr x y _ _ => reservedFreeN x && reservedFreeN y
  | .group c _ _ => reservedFreeL c
  | .ifThen c t _ _ => reservedFreeN c && reservedFreeL t
  | .ifElse c t e _ _ => reservedFreeN c && reservedFreeL t && reservedFreeL e
  | .error _ _ _ => true

/-- reservedFreeN over a NodeList. -/
def reservedFreeL : NodeList → Bool
  | .nil => true
  | .cons h t => reservedFreeN h && reservedFreeL t
end

/-! ## Parser (part_003 grammar, driven as in sys/parser.js)

The nearley grammar is embedded as a backtracking recognizer over the same
rules.  Every rule function returns a pair of the furthest position any
attempted derivation reached (used to distinguish a nearley feed error from
an empty result set) and an optional parse (value and next position).
Recursion is controlled by a fuel argument; parse supplies ample fuel for
its input. -/

/-- Character class of the grammar's whitespace (the JS regex matches
space-like characters; the line-oriented inputs use ASCII whitespace). -/
def isWsC (c : Char) : Bool :=
  c == ' ' || c == '\t' || c == '\n' || c == '\r' ||
  c == Char.ofNat 11 || c == Char.ofNat 12

/-- The single-quote character. -/
def quoteS : Char := Char.ofNat 39

/-- The double-quote character. -/
def quoteD : Char := Char.ofNat 34

/-- The backquote character. -/
def quoteB : Char := Char.ofNat 96

/-- bare_char: any character except whitespace and the shell metacharacters. -/
def isBareChar (c : Char) : Bool :=
  !(c == '|' || c == '&' || c == '<' || c == '>' || c == ';' ||
    c == '(' || c == ')' || c == quoteS || c == quoteD || c == quoteB ||
    isWsC c)

/-- Result of one rule attempt: furthest position reached, and an optional
value with its end position. -/
abbrev PR (α : Type) := Nat × Option (α × Nat)

section Parser

variable (l : List Char)

/-- Skip the optional-whitespace nonterminal. -/
def skipWs (p : Nat) : Nat := p + ((l.drop p).takeWhile isWsC).length

/-- Test one literal character. -/
def litC (p : Nat) (c : Char) : Bool := l[p]? == some c

/-- Mandatory whitespace: the grammar's mandatory-whitespace symbol is a
single charset token, so it matches exactly one whitespace character. -/
def reqWs (p : Nat) : Option Nat :=
  match l[p]? with
  | some c => if isWsC c then some (p + 1) else none
  | none => none

/-- Match a literal character sequence; returns the position of the first
mismatch (or the end position) and whether it matched. -/
def litStrM (p : Nat) : List Char → Nat × Bool
  | [] => (p, true)
  | c :: t => if litC l p c then litStrM (p + 1) t else (p, false)

/-- bareword: a maximal nonempty run of bare characters. -/
def pBareword (p : Nat) : PR String :=
  let t := (l.drop p).takeWhile isBareChar
  if t.isEmpty then (p, none)
  else (p + t.length, some (String.mk t, p + t.length))

/-- IDENTIFIER: a bareword put through the grammar's postprocessor.  A
nearley postprocessor rejects a derivation only by returning the reject
token; this one returns null for a reserved keyword, which completes the
rule with the null value as the command name.  The null name is
represented by the empty string (see the header note): no successful
bareword is empty, so the representation is unambiguous. -/
def pIdentifier (p : Nat) : PR String :=
  match pBareword l p with
  | (m, none) => (m, none)
  | (m, some (s, q)) =>
    if reservedKeywords.contains s then (m, some ("", q)) else (m, some (s, q))

/-- A quoted string with the given quote character: quote, any characters
other than the quote, closing quote; the value is the inner text. -/
def pStringQ (p : Nat) (quote : Char) : PR String :=
  if litC l p quote then
    let t := (l.drop (p + 1)).takeWhile (fun c => !(c == quote))
    let q := p + 1 + t.length
    if litC l q quote then (q + 1, some (String.mk t, q + 1)) else (q, none)
  else (p, none)

/-- word: a single- or double-quoted string, or a bareword. -/
def pWord (p : Nat) : PR String :=
  match pStringQ l p quoteS with
  | (m1, some r) => (m1, some r)
  | (m1, none) =>
    match pStringQ l p quoteD with
    | (m2, some r) => (max m1 m2, some r)
    | (m2, none) =>
      match pBareword l p with
      | (m3, r) => (max (max m1 m2) m3, r)

/-- redirect: a double greater-than (tried first) or a single greater-than,
optional whitespace, then the file word. -/
def pRedirect (p : Nat) : PR Redirection :=
  if litC l p '>' then
    if litC l (p + 1) '>' then
      let q := skipWs l (p + 2)
      match pWord l q with
      | (m, some (w, e)) => (m, some (⟨RedirMode.append, w⟩, e))
      | (m, none) => (m, none)
    else
      let q := skipWs l (p + 1)
      match pWord l q with
      | (m, some (w, e)) => (m, some (⟨RedirMode.overwrite, w⟩, e))
      | (m, none) => (m, none)
  else (p, none)

mutual

/-- arg_list: words separated by mandatory whitespace. -/
def pArgList : Nat → Nat → PR (List String)
  | 0, p => (p, none)
  | fuel + 1, p =>
    match pWord l p with
    | (m, none) => (m, none)
    | (m, some (w, p1)) =>
      match reqWs l p1 with
      | none => (max m p1, some ([w], p1))
      | some q =>
        match pArgList fuel q with
        | (m2, some (ws, p2)) => (max m m2, some (w :: ws, p2))
        | (m2, none) => (max m m2, some ([w], p1))

termination_by structural fuel => fuel

/-- command: an IDENTIFIER with an optional whitespace-separated arg_list. -/
def pCommand : Nat → Nat → PR ASTNode
  | 0, p => (p, none)
  | fuel + 1, p =>
    match pIdentifier l p with
    | (m, none) => (m, none)
    | (m, some (name, p1)) =>
      match reqWs l p1 with
      | none => (max m p1, some (ASTNode.command name [] none false, p1))
      | some q =>
        match pArgList fuel q with
        | (m2, some (args, p2)) =>
          (max m m2, some (ASTNode.command name args none false, p2))
        | (m2, none) => (max m m2, some (ASTNode.command name [] none false, p1))

/-- The left recursion of command_group over redirects: attach each parsed
redirect to the node, the last one winning (the JS spread replaces the
field). -/
def pRedirLoop : Nat → ASTNode → Nat → PR ASTNode
  | 0, n, p => (p, some (n, p))
  | fuel + 1, n, p =>
    let q := skipWs l p
    match pRedirect l q with
    | (m, some (red, e)) =>
      match pRedirLoop fuel (n.setRedirection (some red)) e with
      | (m2, r) => (max m m2, r)
    | (m, none) => (m, some (n, p))

termination_by structural fuel => fuel

/-- Find the first command_list candidate followed by a closing paren. -/
def pCloseParen : Nat → List (List ASTNode × Nat) → Nat × Option (List ASTNode × Nat)
  | 0, _ => (0, none)
  | _ + 1, [] => (0, none)
  | fuel + 1, (nl, e) :: rest =>
    let q := skipWs l e
    if litC l q ')' then (q + 1, some (nl, q + 1))
    else
      match pCloseParen fuel rest with
      | (m2, r) => (max q m2, r)

termination_by structural fuel => fuel

/-- command_group: a command or a parenthesized command_list, each followed
by any number of redirects. -/
def pCommandGroup : Nat → Nat → PR ASTNode
  | 0, p => (p, none)
  | fuel + 1, p =>
    match pCommand fuel p with
    | (m, some (n, p1)) =>
      match pRedirLoop fuel n p1 with
      | (m2, r) => (max m m2, r)
    | (m1, none) =>
      if litC l p '(' then
        let q := skipWs l (p + 1)
        match pCommandList fuel q with
        | (m2, cands) =>
          match pCloseParen fuel cands with
          | (m3, some (nl, e)) =>
            match pRedirLoop fuel (ASTNode.group (ofList nl) none false) e with
            | (m4, r) => (max (max m1 (max m2 m3)) m4, r)
          | (m3, none) => (max m1 (max m2 m3), none)
      else (max m1 p, none)

termination_by structural fuel => fuel

/-- pipeline: command_groups separated by pipe characters, left associative. -/
def pPipeline : Nat → Nat → PR ASTNode
  | 0, p => (p, none)
  | fuel + 1, p =>
    match pCommandGroup fuel p with
    | (m, none) => (m, none)
    | (m, some (n, p1)) =>
      match pPipeLoop fuel n p1 with
      | (m2, r) => (max m m2, r)

termination_by structural fuel => fuel

/-- The left recursion of pipeline: extend with pipe and command_group while
possible, backtracking when the right side fails. -/
def pPipeLoop : Nat → ASTNode → Nat → PR ASTNode
  | 0, n, p => (p, some (n, p))
  | fuel + 1, left, p =>
    let q := skipWs l p
    if litC l q '|' then
      let q2 := skipWs l (q + 1)
      match pCommandGroup fuel q2 with
      | (m, some (rhs, p2)) =>
        match pPipeLoop fuel (ASTNode.pipeline left rhs none false) p2 with
        | (m2, r) => (max m m2, r)
      | (m, none) => (m, some (left, p))
    else (q, some (left, p))

termination_by structural fuel => fuel

/-- logical_sequence: an if_statement or pipeline, extended by the
logical-and / logical-or left recursions. -/
def pLogicalSeq : Nat → Nat → PR ASTNode
  | 0, p => (p, none)
  | fuel + 1, p =>
    match pIfStmt fuel p with
    | (m, some (n, p1)) =>
      match pLogicLoop fuel n p1 with
      | (m2, r) => (max m m2, r)
    | (m1, none) =>
      match pPipeline fuel p with
      | (m2, some (n, p1)) =>
        match pLogicLoop fuel n p1 with
        | (m3, r) => (max (max m1 m2) m3, r)
      | (m2, none) => (max m1 m2, none)

termination_by structural fuel => fuel

/-- The left recursions of logical_sequence: mandatory whitespace, two
ampersands or two pipes, mandatory whitespace, then a pipeline. -/
def pLogicLoop : Nat → ASTNode → Nat → PR ASTNode
  | 0, n, p => (p, some (n, p))
  | fuel + 1, left, p =>
    match reqWs l p with
    | none => (p, some (left, p))
    | some q =>
      if litC l q '&' && litC l (q + 1) '&' then
        match reqWs l (q + 2) with
        | none => (q + 2, some (left, p))
        | some q2 =>
          match pPipeline fuel q2 with
          | (m, some (rhs, p2)) =>
            match pLogicLoop fuel (ASTNode.logicalAnd left rhs none false) p2 with
            | (m2, r) => (max m m2, r)
          | (m, none) => (m, some (left, p))
      else if litC l q '|' && litC l (q + 1) '|' then
        match reqWs l (q + 2) with
        | none => (q + 2, some (left, p))
        | some q2 =>
          match pPipeline fuel q2 with
          | (m, some (rhs, p2)) =>
            match pLogicLoop fuel (ASTNode.logicalOr left rhs none false) p2 with
            | (m2, r) => (max m m2, r)
          | (m, none) => (m, some (left, p))
      else (q, some (left, p))

termination_by structural fuel => fuel

/-- Ending of the else-less if rule: find a then-branch candidate followed by
semicolon and the fi keyword. -/
def pFiTail : Nat → ASTNode → List (List ASTNode × Nat) → PR ASTNode
  | 0, _, _ => (0, none)
  | _ + 1, _, [] => (0, none)
  | fuel + 1, cond, (nl, e) :: rest =>
    let q5 := skipWs l e
    let attempt : PR ASTNode :=
      if litC l q5 ';' then
        let q6 := skipWs l (q5 + 1)
        match litStrM l q6 ['f', 'i'] with
        | (mp, true) => (mp, some (ASTNode.ifThen cond (ofList nl) none false, mp))
        | (mp, false) => (mp, none)
      else (q5, none)
    match attempt with
    | (m, some r) => (m, some r)
    | (m, none) =>
      match pFiTail fuel cond rest with
      | (m2, r) => (max m m2, r)

termination_by structural fuel => fuel

/-- Ending of the if-with-else rule after the else keyword: find an
else-branch candidate followed by semicolon and the fi keyword. -/
def pElseTail : Nat → ASTNode → List ASTNode → List (List ASTNode × Nat) → PR ASTNode
  | 0, _, _, _ => (0, none)
  | _ + 1, _, _, [] => (0, none)
  | fuel + 1, cond, thenNl, (nl, e) :: rest =>
    let q8 := skipWs l e
    let attempt : PR ASTNode :=
      if litC l q8 ';' then
        let q9 := skipWs l (q8 + 1)
        match litStrM l q9 ['f', 'i'] with
        | (mp, true) =>
          (mp, some (ASTNode.ifElse cond (ofList thenNl) (ofList nl) none false, mp))
        | (mp, false) => (mp, none)
      else (q8, none)
    match attempt with
    | (m, some r) => (m, some r)
    | (m, none) =>
      match pElseTail fuel cond thenNl rest with
      | (m2, r) => (max m m2, r)

termination_by structural fuel => fuel

/-- Middle of the if-with-else rule: find a then-branch candidate followed by
semicolon, the else keyword, mandatory whitespace and the else branch. -/
def pElseHead : Nat → ASTNode → List (List ASTNode × Nat) → PR ASTNode
  | 0, _, _ => (0, none)
  | _ + 1, _, [] => (0, none)
  | fuel + 1, cond, (nl, e) :: rest =>
    let q5 := skipWs l e
    let attempt : PR ASTNode :=
      if litC l q5 ';' then
        let q6 := skipWs l (q5 + 1)
        match litStrM l q6 ['e', 'l', 's', 'e'] with
        | (mp, false) => (mp, none)
        | (_, true) =>
          match reqWs l (q6 + 4) with
          | none => (q6 + 4, none)
          | some q7 =>
            match pCommandList fuel q7 with
            | (m2, cands2) =>
              match pElseTail fuel cond nl cands2 with
              | (m3, r) => (max m2 m3, r)
      else (q5, none)
    match attempt with
    | (m, some r) => (m, some r)
    | (m, none) =>
      match pElseHead fuel cond rest with
      | (m2, r) => (max m m2, r)

termination_by structural fuel => fuel

/-- The else-less if rule: if, condition pipeline, semicolon, then,
command_list, semicolon, fi. -/
def pIfRule1 : Nat → Nat → PR ASTNode
  | 0, p => (p, none)
  | fuel + 1, p =>
    match litStrM l p ['i', 'f'] with
    | (mp, false) => (mp, none)
    | (_, true) =>
      match reqWs l (p + 2) with
      | none => (p + 2, none)
      | some q =>
        match pPipeline fuel q with
        | (m1, none) => (m1, none)
        | (m1, some (cond, p1)) =>
          let q2 := skipWs l p1
          if litC l q2 ';' then
            let q3 := skipWs l (q2 + 1)
            match litStrM l q3 ['t', 'h', 'e', 'n'] with
            | (mt, false) => (max m1 mt, none)
            | (_, true) =>
              match reqWs l (q3 + 4) with
              | none => (max m1 (q3 + 4), none)
              | some q4 =>
                match pCommandList fuel q4 with
                | (m2, cands) =>
                  match pFiTail fuel cond cands with
                  | (m3, r) => (max (max m1 m2) m3, r)
          else (max m1 q2, none)

termination_by structural fuel => fuel

/-- The if-with-else rule: as pIfRule1 up to the then branch, then else,
else branch, semicolon, fi. -/
def pIfRule2 : Nat → Nat → PR ASTNode
  | 0, p => (p, none)
  | fuel + 1, p =>
    match litStrM l p ['i', 'f'] with
    | (mp, false) => (mp, none)
    | (_, true) =>
      match reqWs l (p + 2) with
      | none => (p + 2, none)
      | some q =>
        match pPipeline fuel q with
        | (m1, none) => (m1, none)
        | (m1, some (cond, p1)) =>
          let q2 := skipWs l p1
          if litC l q2 ';' then
            let q3 := skipWs l (q2 + 1)
            match litStrM l q3 ['t', 'h', 'e', 'n'] with
            | (mt, false) => (max m1 mt, none)
            | (_, true) =>
              match reqWs l (q3 + 4) with
              | none => (max m1 (q3 + 4), none)
              | some q4 =>
                match pCommandList fuel q4 with
                | (m2, cands) =>
                  match pElseHead fuel cond cands with
                  | (m3, r) => (max (max m1 m2) m3, r)
          else (max m1 q2, none)

termination_by structural fuel => fuel

/-- if_statement: the else-less rule first, then the rule with else. -/
def pIfStmt : Nat → Nat → PR ASTNode
  | 0, p => (p, none)
  | fuel + 1, p =>
    match pIfRule1 fuel p with
    | (m, some r) => (m, some r)
    | (m1, none) =>
      match pIfRule2 fuel p with
      | (m2, r) => (max m1 m2, r)

termination_by structural fuel => fuel

/-- command_unit: a logical_sequence optionally marked background by a
trailing ampersand. -/
def pCommandUnit : Nat → Nat → PR ASTNode
  | 0, p => (p, none)
  | fuel + 1, p =>
    match pLogicalSeq fuel p with
    | (m, none) => (m, none)
    | (m, some (n, p1)) =>
      let q := skipWs l p1
      if litC l q '&' then (max m (q + 1), some (n.setBackground true, q + 1))
      else (max m q, some (n, p1))

termination_by structural fuel => fuel

/-- command_list: a first command_unit and all the ways the list may
continue; the candidate end positions cover stopping after any unit or after
any separating or trailing semicolon. -/
def pCommandList : Nat → Nat → Nat × List (List ASTNode × Nat)
  | 0, p => (p, [])
  | fuel + 1, p =>
    match pCommandUnit fuel p with
    | (m, none) => (m, [])
    | (m, some (u, p1)) =>
      match pCLTail fuel p1 with
      | (m2, cands) => (max m m2, cands.map (fun c => (u :: c.1, c.2)))

termination_by structural fuel => fuel

/-- Continuations of a command_list after a unit: stop here, or consume a
semicolon and continue. -/
def pCLTail : Nat → Nat → Nat × List (List ASTNode × Nat)
  | 0, p => (p, [])
  | fuel + 1, p =>
    let q := skipWs l p
    if litC l q ';' then
      match pSemiCont fuel (q + 1) with
      | (m, cands) => (max (q + 1) m, (([] : List ASTNode), p) :: cands)
    else (q, [(([] : List ASTNode), p)])

termination_by structural fuel => fuel

/-- Continuations right after a consumed semicolon: stop here, consume a
further semicolon, or parse another unit and continue. -/
def pSemiCont : Nat → Nat → Nat × List (List ASTNode × Nat)
  | 0, p => (p, [])
  | fuel + 1, r =>
    let q := skipWs l r
    let semiPart :=
      if litC l q ';' then pSemiCont fuel (q + 1)
      else (q, ([] : List (List ASTNode × Nat)))
    let unitPart : Nat × List (List ASTNode × Nat) :=
      match pCommandUnit fuel q with
      | (m, none) => (m, ([] : List (List ASTNode × Nat)))
      | (m, some (u, p1)) =>
        match pCLTail fuel p1 with
        | (m2, cands) => (max m m2, cands.map (fun c => (u :: c.1, c.2)))
    (max semiPart.1 unitPart.1, (([] : List ASTNode), r) :: (semiPart.2 ++ unitPart.2))

termination_by structural fuel => fuel
end

/-- Scan command_list candidates for one that reaches the end of input after
trailing whitespace; collects the failure frontier of the others. -/
def findComplete : List (List ASTNode × Nat) → Nat → Nat × Option (List ASTNode)
  | [], m => (m, none)
  | (nl, e) :: rest, m =>
    let q := skipWs l e
    if q = l.length then (max m q, some nl) else findComplete rest (max m q)

/-- main: optional whitespace, a command_list, optional whitespace, end of
input. -/
def pMain (fuel : Nat) : Nat × Option (List ASTNode) :=
  match pCommandList l fuel (skipWs l 0) with
  | (m, cands) => findComplete l cands m

end Parser

/-- Fuel supplied by parse; generous with respect to the input length. -/
def parseFuel (n : Nat) : Nat := 16 * n + 64

/-- The parser driver of sys/parser.js, outcome-level: a successful parse
yields the statement list, an exhausted parse with all characters consumable
yields no results (nearley: parser.results is empty), and a parse stuck at a
character yields an error carrying the furthest reached index (nearley:
feed throws). -/
def parseLine (line : String) : Except Nat (Option (List ASTNode)) :=
  match pMain line.data (parseFuel line.data.length) with
  | (_, some nodes) => .ok (some nodes)
  | (m, none) =>
    if line.data.length ≤ m then .ok none
    else .error m

/-- Stand-in for the text of the nearley feed-error report over the
furthest reached index (the e.message of sys/parser.js, a multi-line
report whose contents this development does not reconstruct; no theorem
below states anything about this string's value, only that an error node
carrying it is produced). -/
def feedErrorMessage (m : Nat) : String :=
  "Syntax error at line 1 col " ++ toString (m + 1)

/-- parse from sys/parser.js: never throws; no results become the empty
list, a feed error becomes a single error node. -/
def parse (line : String) : List ASTNode :=
  match parseLine line with
  | .ok (some nodes) => nodes
  | .ok none => []
  | .error m => [ASTNode.error (feedErrorMessage m) none false]

/-! ## Execution model (sys/engine/AstExecutor.js, sys/kernel.js) -/

/-- Filesystem collaborator (the pfs promises interface): stored file
contents plus an oracle giving the error message of paths whose writes fail
(an I/O failure).  Read failures are only observed through catch handlers in
the embedded code, so a missing key models them. -/
structure FSModel where
  files : List (String × String)
  writeFail : String → Option String

/-- Insert or replace a key in an association list (JS object assignment). -/
def setAssoc (l : List (String × String)) (k v : String) : List (String × String) :=
  match l with
  | [] => [(k, v)]
  | (k1, v1) :: t => if k1 = k then (k, v) :: t else (k1, v1) :: setAssoc t k v

/-- readFile: the stored content, if any. -/
def FSModel.read (fs : FSModel) (path : String) : Option String :=
  fs.files.lookup path

/-- writeFile: fails with the oracle's message, otherwise stores content. -/
def FSModel.writeF (fs : FSModel) (path content : String) : Except String FSModel :=
  match fs.writeFail path with
  | some msg => .error msg
  | none => .ok { fs with files := setAssoc fs.files path content }

/-- The kernel session state touched by the executor: cwd, environment, last
exit status, the filesystem handle, and the currentProcess cancellation
slot (modelled as an occupancy flag, since the sequential embedding cannot
hold a promise). -/
structure Kern where
  cwd : String
  env : List (String × String)
  lastExitStatus : Int
  fs : FSModel
  currentProcess : Bool

/-- The transient result of evaluating a node. -/
structure ExecutionResult where
  stdout : String
  status : Int
deriving Repr, DecidableEq

/-- A registered command object: run receives the kernel, the expanded
arguments and the piped stdin, and returns the new kernel state, the text it
wrote through the (captured) kernel write and writeln, and either a thrown
error message or its optional numeric return value. -/
structure CmdImpl where
  run : Kern → List String → Option String → Kern × String × Except String (Option Int)

/-- The command registry (kernel.commands).  The JS dispatch requires a run
member; entries of this model always have one, so an entry without run is
modelled by its absence. -/
abbrev Registry := List (String × CmdImpl)

/-- Expansion of the dollar-question-mark argument to the last exit status. -/
def expandArgs (args : List String) (lastStatus : Int) : List String :=
  args.map (fun a => if a = "$?" then toString lastStatus else a)

/-- Character class of the assignment regex head ([a-zA-Z_]). -/
def isAlphaUnd (c : Char) : Bool :=
  (97 ≤ c.toNat && c.toNat ≤ 122) || (65 ≤ c.toNat && c.toNat ≤ 90) || c == '_'

/-- Character class of the assignment regex tail ([a-zA-Z0-9_]). -/
def isAlnumUnd (c : Char) : Bool :=
  isAlphaUnd c || (48 ≤ c.toNat && c.toNat ≤ 57)

/-- The assignment pattern of executeSingleCommand: an identifier, an equals
sign, and a nonempty value (the regex caret-identifier-equals-dot-plus with
dot-all).  Greedy identifier matching agrees with the regex because a
shorter identifier prefix would have to be followed by an equals sign where
an identifier character stands. -/
def assignMatch (name : String) : Option (String × String) :=
  match name.data with
  | [] => none
  | c :: rest =>
    if isAlphaUnd c then
      let idTail := rest.takeWhile isAlnumUnd
      match rest.drop idTail.length with
      | '=' :: v =>
        if v = [] then none
        else some (String.mk (c :: idTail), String.mk v)
      | _ => none
    else none

/-- Quote character test for the assignment value stripper. -/
def isQuote (c : Char) : Bool := c == quoteS || c == quoteD

/-- The value stripper: remove one leading and one trailing quote character
(the global regex with caret-quote and quote-dollar alternatives). -/
def stripQuotes (s : String) : String :=
  let l1 :=
    match s.data with
    | c :: t => if isQuote c then t else s.data
    | [] => []
  let l2 :=
    match l1.getLast? with
    | some c => if isQuote c then l1.dropLast else l1
    | none => l1
  String.mk l2

/-- Insertion sort on strings (Object.keys followed by sort in the help
builtin; lexicographic). -/
def insertSorted (s : String) : List String → List String
  | [] => [s]
  | x :: t => if s ≤ x then s :: x :: t else x :: insertSorted s t

/-- Sort a list of strings. -/
def sortStrings : List String → List String
  | [] => []
  | x :: t => insertSorted x (sortStrings t)

/-- Kernel.handleBuiltins of sys/kernel.js: help and clear succeed, the
empty name succeeds silently, anything else is command not found with
status 127.  The clear case only touches the external terminal object. -/
def handleBuiltins (R : Registry) (name : String) (k : Kern) : Kern × String × Int :=
  if name = "help" then
    let cmds := String.intercalate ", " (sortStrings (R.map Prod.fst))
    (k, "Builtins: help, clear. Commands: " ++ cmds ++ "\n", 0)
  else if name = "clear" then (k, "", 0)
  else if name = "" then (k, "", 0)
  else (k, "command not found: " ++ name ++ "\n", 127)

/-- Dispatch to a registered command: the invocation occupies the
currentProcess slot for its duration; a numeric return is the status, any
other resolution is status 0; a thrown error is caught, rendered with the
-qrx prefix through the captured writeln, and yields status 1; the finally
block clears the slot in every case.  An unregistered name falls through to
the kernel builtins. -/
def dispatchCommand (R : Registry) (name : String) (expandedArgs : List String)
    (stdin : Option String) (k : Kern) : Kern × String × Int :=
  match R.lookup name with
  | some impl =>
    match impl.run { k with currentProcess := true } expandedArgs stdin with
    | (k1, w, .ok (some n)) => ({ k1 with currentProcess := false }, w, n)
    | (k1, w, .ok none) => ({ k1 with currentProcess := false }, w, 0)
    | (k1, w, .error msg) =>
      ({ k1 with currentProcess := false },
        w ++ "-qrx: " ++ name ++ ": " ++ msg ++ "\n", 1)
  | none => handleBuiltins R name k

/-- AstExecutor.executeSingleCommand: expand the arguments, print stdin for
a missing name, store pure assignments in the environment, and otherwise
dispatch. -/
def executeSingleCommand (R : Registry) (name : String) (args : List String)
    (stdin : Option String) (k : Kern) : Kern × String × Int :=
  let expandedArgs := expandArgs args k.lastExitStatus
  if name = "" then
    (k, (match stdin with | some s => s | none => ""), 0)
  else
    match assignMatch name with
    | some (v, val) =>
      if expandedArgs.isEmpty then
        ({ k with env := setAssoc k.env v (stripQuotes val) }, "", 0)
      else dispatchCommand R name expandedArgs stdin k
    | none => dispatchCommand R name expandedArgs stdin k

/-- The redirection step at the end of executeNode: resolve the file against
the cwd, write (append mode first reads the existing content, a missing or
unreadable file counting as empty), blank the outward stdout on success; on
an I/O failure write an error line to the ambient sink and force status 1. -/
def applyRedirect (red : Redirection) (k : Kern) (emitted : String)
    (r : ExecutionResult) : Kern × String × ExecutionResult :=
  let path := resolvePath red.file k.cwd
  let content :=
    match red.mode with
    | .append => ((k.fs.read path).getD "") ++ r.stdout
    | .overwrite => r.stdout
  match k.fs.writeF path content with
  | .ok fs1 => ({ k with fs := fs1 }, emitted, ⟨"", r.status⟩)
  | .error msg =>
    (k, emitted ++ "-qrx: " ++ red.file ++ ": " ++ msg ++ "\n", ⟨r.stdout, 1⟩)

/-- The tail of executeNode shared by every variant: apply the node's
redirection to the computed result if present, then set lastExitStatus to
the final status. -/
def finishNode (n : ASTNode) (c : Kern × String × ExecutionResult) :
    Kern × String × ExecutionResult :=
  match c with
  | (k1, e1, r1) =>
    match n.redirection with
    | none => ({ k1 with lastExitStatus := r1.status }, e1, r1)
    | some red =>
      match applyRedirect red k1 e1 r1 with
      | (k2, e2, r2) => ({ k2 with lastExitStatus := r2.status }, e2, r2)

mutual
/-- AstExecutor.executeNode: the variant switch, then the redirection step,
then the lastExitStatus update (finishNode).  The returned string is the
text written to the ambient output sink (only redirection failures write
there; command output is captured into the node's stdout, or discarded for
a background command without redirection). -/
def executeNode (R : Registry) (n : ASTNode) (stdin : Option String) (k : Kern) :
    Kern × String × ExecutionResult :=
  let core : Kern × String × ExecutionResult :=
    match n with
    | .error msg _ _ => (k, "", ⟨"-qrx: parse error: " ++ msg ++ "\n", 2⟩)
    | .logicalAnd left right _ _ =>
      match executeNode R left stdin k with
      | (k1, e1, r1) =>
        if r1.status = 0 then
          match executeNode R right stdin k1 with
          | (k2, e2, r2) => (k2, e1 ++ e2, ⟨r1.stdout ++ r2.stdout, r2.status⟩)
        else (k1, e1, r1)
    | .logicalOr left right _ _ =>
      match executeNode R left stdin k with
      | (k1, e1, r1) =>
        if r1.status ≠ 0 then
          match executeNode R right stdin k1 with
          | (k2, e2, r2) => (k2, e1 ++ e2, ⟨r1.stdout ++ r2.stdout, r2.status⟩)
        else (k1, e1, r1)
    | .pipeline src dst _ _ =>
      match executeNode R src stdin k with
      | (k1, e1, r1) =>
        match executeNode R dst (some r1.stdout) k1 with
        | (k2, e2, r2) => (k2, e1 ++ e2, r2)
    | .group cmds _ _ => execGroup R cmds stdin k 0
    | .ifThen cond thenB _ _ =>
      match executeNode R cond stdin k with
      | (k1, e1, rc) =>
        if rc.status = 0 then
          match execBranch R thenB stdin k1 with
          | (k2, e2, rb) => (k2, e1 ++ e2, rb)
        else (k1, e1, ⟨"", 0⟩)
    | .ifElse cond thenB elseB _ _ =>
      match executeNode R cond stdin k with
      | (k1, e1, rc) =>
        if rc.status = 0 then
          match execBranch R thenB stdin k1 with
          | (k2, e2, rb) => (k2, e1 ++ e2, rb)
        else
          match execBranch R elseB stdin k1 with
          | (k2, e2, rb) => (k2, e1 ++ e2, rb)
    | .command name args red bg =>
      match executeSingleCommand R name args stdin { k with currentProcess := true } with
      | (k1, w, st) =>
        ({ k1 with currentProcess := false }, "",
          ⟨if bg && red.isNone then "" else w, st⟩)
  finishNode n core

/-- The group loop: run each child with the shared stdin, concatenate the
outputs, keep the status of the last child run (st is the running
groupStatus, initially 0); no early exit. -/
def execGroup (R : Registry) (l : NodeList) (stdin : Option String) (k : Kern)
    (st : Int) : Kern × String × ExecutionResult :=
  match l with
  | .nil => (k, "", ⟨"", st⟩)
  | .cons h t =>
    match executeNode R h stdin k with
    | (k1, e1, r1) =>
      match execGroup R t stdin k1 r1.status with
      | (k2, e2, r2) => (k2, e1 ++ e2, ⟨r1.stdout ++ r2.stdout, r2.status⟩)

/-- The if-branch loop: run children in order, concatenating outputs and
keeping the last status, stopping at the first nonzero status. -/
def execBranch (R : Registry) (l : NodeList) (stdin : Option String) (k : Kern) :
    Kern × String × ExecutionResult :=
  match l with
  | .nil => (k, "", ⟨"", 0⟩)
  | .cons h t =>
    match executeNode R h stdin k with
    | (k1, e1, r1) =>
      if r1.status = 0 then
        match execBranch R t stdin k1 with
        | (k2, e2, r2) => (k2, e1 ++ e2, ⟨r1.stdout ++ r2.stdout, r2.status⟩)
      else (k1, e1, ⟨r1.stdout, r1.status⟩)
end

/-! ## Concrete commands used as registry entries -/

/-- sys/cmd/echo.js: write the arguments joined by spaces through writeln;
stdin is ignored; no explicit return value. -/
def echoImpl : CmdImpl :=
  ⟨fun k args _ => (k, String.intercalate " " args ++ "\n", .ok none)⟩

/-- The file loop of cat: each argument resolved against the cwd and read;
a missing file writes the error line and marks failure. -/
def catLoop (k : Kern) : List String → String × Bool
  | [] => ("", false)
  | path :: rest =>
    let abs := resolvePath path k.cwd
    let (w, err) :=
      match k.fs.read abs with
      | some content => (content, false)
      | none => ("cat: " ++ path ++ ": No such file or directory\n", true)
    let (w2, err2) := catLoop k rest
    (w ++ w2, err || err2)

/-- sys/cmd/cat.js (part_001 revision): piped stdin is printed and the file
arguments ignored, status 0; no arguments is an error with status 1;
otherwise the files are concatenated, status 1 when any failed. -/
def catImpl : CmdImpl :=
  ⟨fun k args stdin =>
    match stdin with
    | some s => (k, s, .ok (some 0))
    | none =>
      if args.isEmpty then (k, "cat: missing file operand\n", .ok (some 1))
      else
        let (w, err) := catLoop k args
        (k, w, .ok (some (if err then 1 else 0)))⟩

/-- A registry holding the two embedded source commands. -/
def stdRegistry : Registry := [("echo", echoImpl), ("cat", catImpl)]

/-- The throwing command used to witness and refute the rendering claims. -/
def boomImpl : CmdImpl := ⟨fun k _ _ => (k, "", .error "boom")⟩

/-- A registry holding only the throwing command. -/
def boomRegistry : Registry := [("c", boomImpl)]

/-- A filesystem with no files where every write succeeds. -/
def emptyFS : FSModel := ⟨[], fun _ => none⟩

/-- The kernel state at session start: root cwd, empty environment, exit
status 0, free slot. -/
def kern0 : Kern := ⟨"/", [], 0, emptyFS, false⟩

/-! ## Statement driver (modelled from the spec) -/

/-- Driver-level session state: the kernel state, the text shown on the
terminal, the background job counter, and the scheduled-but-not-completed
background tasks. -/
structure DriverState where
  kern : Kern
  term : String
  jobCounter : Nat
  pending : List ASTNode

/-- Modelled from the spec: the statement driver that runCommand of the
AstExecutor-era kernel implements is not in src (the kernel.js present
awaits every node and has no job counter); section 5 of the spec specifies
it.  A background-flagged statement is scheduled as an independent task and
not awaited: the driver immediately emits the job-id acknowledgement,
increments the monotonic counter, records the task as pending, and proceeds;
a foreground statement is evaluated to completion and its stdout is written
to the terminal unless the node carries a redirection. -/
def runStatement (R : Registry) (n : ASTNode) (d : DriverState) : DriverState :=
  if n.background then
    { d with
      term := d.term ++ "[" ++ toString (d.jobCounter + 1) ++ "]\n",
      jobCounter := d.jobCounter + 1,
      pending := d.pending ++ [n] }
  else
    match executeNode R n none d.kern with
    | (k1, e1, r1) =>
      { d with
        kern := k1,
        term := d.term ++ e1 ++
          (if r1.stdout ≠ "" ∧ n.redirection = none then r1.stdout else "") }

/-- Modelled from the spec: the driver loop over the parsed top-level
statements, in order. -/
def runDriver (R : Registry) (nodes : List ASTNode) (d : DriverState) : DriverState :=
  match nodes with
  | [] => d
  | n :: rest => runDriver R rest (runStatement R n d)

/-- Modelled from the spec: completion of a scheduled background task, at
whatever later point it occurs.  The task's captured stdout is discarded
(never written to the terminal); its redirection, if any, was already
applied to storage inside executeNode; only ambient sink text (redirection
failure lines) surfaces. -/
def completeBackground (R : Registry) (n : ASTNode) (k : Kern) : Kern × String :=
  match executeNode R n none k with
  | (k1, e1, _) => (k1, e1)

/-! ## Lemmas: path resolution -/

theorem splitSlash_ne_nil (l : List Char) : splitSlash l ≠ [] := by
  cases l with
  | nil => simp [splitSlash]
  | cons c t => simp only [splitSlash]; split <;> simp

theorem noslash_of_mem_splitSlash :
    ∀ (l : List Char) (seg : List Char), seg ∈ splitSlash l → '/' ∉ seg := by
  intro l
  induction l with
  | nil => intro seg h; simp [splitSlash] at h; simp [h]
  | cons c t ih =>
    intro seg h
    simp only [splitSlash] at h
    by_cases hc : c = '/'
    · simp [hc] at h
      rcases h with h | h
      · simp [h]
      · exact ih seg h
    · simp [hc] at h
      obtain ⟨h0, t0, hst⟩ := List.exists_cons_of_ne_nil (splitSlash_ne_nil t)
      rw [hst] at h
      simp at h
      rcases h with h | h
      · subst h
        intro hm
        rcases List.mem_cons.mp hm with h1 | h1
        · exact hc h1.symm
        · exact ih h0 (by rw [hst]; exact List.mem_cons_self h0 t0) h1
      · exact ih seg (by rw [hst]; exact List.mem_cons_of_mem h0 h)

theorem splitSlash_noslash (x : List Char) (h : '/' ∉ x) : splitSlash x = [x] := by
  induction x with
  | nil => simp [splitSlash]
  | cons c t ih =>
    have hc : c ≠ '/' := fun hh => h (by simp [hh])
    have ht : '/' ∉ t := fun hh => h (List.mem_cons_of_mem c hh)
    simp only [splitSlash, if_neg hc, ih ht]
    simp

theorem splitSlash_append (x r : List Char) (h : '/' ∉ x) :
    splitSlash (x ++ '/' :: r) = x :: splitSlash r := by
  induction x with
  | nil => simp [splitSlash]
  | cons c t ih =>
    have hc : c ≠ '/' := fun hh => h (by simp [hh])
    have ht : '/' ∉ t := fun hh => h (List.mem_cons_of_mem c hh)
    have hstep : splitSlash ((c :: t) ++ '/' :: r) =
        (c :: (splitSlash (t ++ '/' :: r)).headI) :: (splitSlash (t ++ '/' :: r)).tail := by
      rw [List.cons_append]
      rw [splitSlash]
      rw [if_neg hc]
    rw [hstep, ih ht]
    simp

theorem splitSlash_joinSlash :
    ∀ (segs : List (List Char)), segs ≠ [] → (∀ s ∈ segs, '/' ∉ s) →
      splitSlash (joinSlash segs) = segs := by
  intro segs
  induction segs with
  | nil => intro h; exact absurd rfl h
  | cons x rest ih =>
    intro _ hs
    cases rest with
    | nil =>
      simp only [joinSlash]
      exact splitSlash_noslash x (hs x (by simp))
    | cons y t =>
      simp only [joinSlash]
      rw [splitSlash_append x _ (hs x (by simp))]
      rw [ih (by simp) (fun s hmem => hs s (List.mem_cons_of_mem x hmem))]

theorem goodSeg_of_mem_foldl_segStep :
    ∀ (parts acc : List (List Char)),
      (∀ s ∈ acc, goodSeg s) → (∀ s ∈ parts, '/' ∉ s) →
      ∀ s ∈ parts.foldl segStep acc, goodSeg s := by
  intro parts
  induction parts with
  | nil => intro acc hacc _ s hmem; exact hacc s hmem
  | cons part rest ih =>
    intro acc hacc hp s hmem
    simp only [List.foldl_cons] at hmem
    refine ih (segStep acc part) ?_ (fun q hq => hp q (List.mem_cons_of_mem part hq)) s hmem
    intro q hq
    unfold segStep at hq
    split at hq
    · exact hacc q (List.mem_of_mem_dropLast hq)
    · next hdd =>
      split at hq
      · exact hacc q hq
      · next hskip =>
        rcases List.mem_append.mp hq with h1 | h1
        · exact hacc q h1
        · have hqp : q = part := by simpa using h1
          subst hqp
          push_neg at hskip
          exact ⟨hskip.2, hskip.1, hdd, hp q (List.mem_cons_self q rest)⟩

theorem foldl_segStep_all_good :
    ∀ (parts acc : List (List Char)), (∀ s ∈ parts, goodSeg s) →
      parts.foldl segStep acc = acc ++ parts := by
  intro parts
  induction parts with
  | nil => intro acc _; simp
  | cons part rest ih =>
    intro acc hp
    obtain ⟨h1, h2, h3, _⟩ := hp part (List.mem_cons_self part rest)
    simp only [List.foldl_cons]
    have hstep : segStep acc part = acc ++ [part] := by
      unfold segStep
      rw [if_neg h3, if_neg (by simp [h1, h2])]
    rw [hstep, ih (acc ++ [part]) (fun s hmem => hp s (List.mem_cons_of_mem part hmem))]
    simp

theorem string_ne_empty_iff_data (s : String) : s ≠ "" ↔ s.data ≠ [] := by
  constructor
  · intro h hd
    apply h
    apply String.ext
    simpa using hd
  · intro h hs
    exact h (by rw [hs])

theorem resolvePath_data (p cwd : String) (hp : p ≠ "") :
    (resolvePath p cwd).data = resolveCore p.data cwd.data := by
  unfold resolvePath
  rw [if_neg hp]

/-- Amended C10: for every nonempty path and every cwd, resolvePath returns
a root-anchored join of well-formed segments (so it begins with a slash and
contains no dot, dot-dot or empty segments); resolving the absolute path
slash-dot-dot yields the root for any cwd; the result on an absolute path
is independent of the cwd; re-resolving an output under any cwd returns it
unchanged; and the empty path returns the cwd verbatim (the counterexample
to the unrestricted claim). -/
theorem resolvePath_spec :
    (∀ p cwd : String, p ≠ "" →
      ∃ segs : List (List Char),
        (resolvePath p cwd).data = '/' :: joinSlash segs ∧ ∀ s ∈ segs, goodSeg s)
    ∧ (∀ cwd : String, resolvePath "/.." cwd = "/")
    ∧ (∀ p cwd cwd' : String, p.data.head? = some '/' →
        resolvePath p cwd = resolvePath p cwd')
    ∧ (∀ p cwd cwd' : String, p ≠ "" →
        resolvePath (resolvePath p cwd) cwd' = resolvePath p cwd)
    ∧ (∀ cwd : String, resolvePath "" cwd = cwd) := by
  have hstruct : ∀ p cwd : String, p ≠ "" →
      ∃ segs : List (List Char),
        (resolvePath p cwd).data = '/' :: joinSlash segs ∧ ∀ s ∈ segs, goodSeg s := by
    intro p cwd hp
    rw [resolvePath_data p cwd hp]
    unfold resolveCore
    refine ⟨_, rfl, ?_⟩
    intro s hmem
    exact goodSeg_of_mem_foldl_segStep _ [] (by simp)
      (fun q hq => noslash_of_mem_splitSlash _ q hq) s hmem
  have habs : ∀ p cwd cwd' : String, p.data.head? = some '/' →
      resolvePath p cwd = resolvePath p cwd' := by
    intro p cwd cwd' hh
    obtain ⟨t, ht⟩ : ∃ t, p.data = '/' :: t := by
      cases hd : p.data with
      | nil => rw [hd] at hh; simp at hh
      | cons c t =>
        rw [hd] at hh
        simp at hh
        exact ⟨t, by rw [hh]⟩
    have hp : p ≠ "" := (string_ne_empty_iff_data p).mpr (by rw [ht]; simp)
    apply String.ext
    rw [resolvePath_data p cwd hp, resolvePath_data p cwd' hp]
    unfold resolveCore
    rw [ht]
    rfl
  refine ⟨hstruct, ?_, habs, ?_, fun cwd => rfl⟩
  · intro cwd
    apply String.ext
    rw [resolvePath_data _ cwd (by decide)]
    rfl
  · intro p cwd cwd' hp
    obtain ⟨segs, hdata, hgood⟩ := hstruct p cwd hp
    have hr : resolvePath p cwd ≠ "" :=
      (string_ne_empty_iff_data _).mpr (by rw [hdata]; simp)
    apply String.ext
    rw [resolvePath_data _ cwd' hr]
    rw [show resolveCore (resolvePath p cwd).data cwd'.data =
      '/' :: joinSlash (resolveSegs (splitSlash (resolvePath p cwd).data)) from by
        unfold resolveCore
        rw [hdata]
        rfl]
    rw [hdata]
    rw [show splitSlash ('/' :: joinSlash segs) = [] :: splitSlash (joinSlash segs) from by
      rw [splitSlash]
      rw [if_pos rfl]]
    cases segs with
    | nil => rfl
    | cons x t =>
      rw [splitSlash_joinSlash (x :: t) (by simp)
        (fun s hmem => (hgood s hmem).2.2.2)]
      unfold resolveSegs
      rw [List.foldl_cons]
      rw [show segStep ([] : List (List Char)) [] = [] from by decide]
      rw [foldl_segStep_all_good (x :: t) [] hgood]
      simp

/-- Witness for resolvePath_spec at concrete inputs. -/
theorem resolvePath_spec_witness :
    resolvePath (resolvePath "a/../b/./c" "/x") "/other" = resolvePath "a/../b/./c" "/x"
    ∧ resolvePath "a/../b/./c" "/x" = "/x/b/c" :=
  ⟨resolvePath_spec.2.2.2.1 "a/../b/./c" "/x" "/other" (by decide), by rfl⟩

/-- Counterexample to C10 as stated: with an empty path the cwd is returned
verbatim, so the result need not begin with a slash. -/
theorem resolvePath_claim_cex :
    resolvePath "" "x" = "x" ∧ ¬ ("x".data.head? = some '/') :=
  ⟨rfl, by decide⟩

/-! ## Lemmas: executor -/

theorem expandArgs_isEmpty (args : List String) (s : Int) :
    (expandArgs args s).isEmpty = args.isEmpty := by
  cases args <;> simp [expandArgs]

theorem applyRedirect_currentProcess (red : Redirection) (k : Kern) (e : String)
    (r : ExecutionResult) :
    ((applyRedirect red k e r).1).currentProcess = k.currentProcess := by
  simp only [applyRedirect]
  split <;> rfl

/-- Amended C7: evaluating an error node returns stdout built from the
-qrx parse error prefix, the message and a newline, with status 2 (and
updates lastExitStatus to 2). -/
theorem errorNode_spec :
    ∀ (R : Registry) (msg : String) (bg : Bool) (stdin : Option String) (k : Kern),
      executeNode R (.error msg none bg) stdin k =
        ({ k with lastExitStatus := 2 }, "",
          ⟨"-qrx: parse error: " ++ msg ++ "\n", 2⟩) := by
  intro R msg bg stdin k
  simp only [executeNode]
  rfl

/-- Counterexample to C7 as stated: the stdout carries the -qrx prefix and a
trailing newline, so it is not exactly the claimed concatenation. -/
theorem errorNode_claim_cex :
    (executeNode ([] : Registry) (.error "x" none false) none kern0).2.2 =
      ⟨"-qrx: parse error: x\n", 2⟩
    ∧ "-qrx: parse error: x\n" ≠ "parse error: x" :=
  ⟨rfl, by decide⟩

/-- C6: a pipeline evaluates its source with the inbound stdin, feeds the
captured stdout as stdin to the destination, and returns the destination's
result (status of the last stage only); the parse of the spec example
evaluates to stdout hello-newline with status 0. -/
theorem pipeline_spec :
    (∀ (R : Registry) (f t : ASTNode) (bg : Bool) (stdin : Option String) (k : Kern),
      executeNode R (.pipeline f t none bg) stdin k =
        (match executeNode R f stdin k with
         | (k1, e1, r1) =>
           match executeNode R t (some r1.stdout) k1 with
           | (k2, e2, r2) => ({ k2 with lastExitStatus := r2.status }, e1 ++ e2, r2)))
    ∧ parse "echo hello | cat" =
        [.pipeline (.command "echo" ["hello"] none false)
          (.command "cat" [] none false) none false]
    ∧ (executeNode stdRegistry
        (.pipeline (.command "echo" ["hello"] none false)
          (.command "cat" [] none false) none false) none kern0).2.2 =
        ⟨"hello\n", 0⟩ := by
  refine ⟨?_, by rfl, by rfl⟩
  intro R f t bg stdin k
  rcases hf : executeNode R f stdin k with ⟨k1, e1, r1⟩
  rcases ht : executeNode R t (some r1.stdout) k1 with ⟨k2, e2, r2⟩
  simp only [executeNode, hf, ht]
  rfl

/-- C5: an if statement evaluates the condition first; on status 0 it runs
the then branch through the branch loop (accumulate stdout, keep last
status, stop at first failure); on a nonzero status it runs the else branch
when present; with no else branch and a failed condition the result is
empty stdout and status 0. -/
theorem ifStatement_spec :
    ∀ (R : Registry) (c : ASTNode) (tb eb : NodeList) (bg : Bool)
      (stdin : Option String) (k k1 : Kern) (e1 : String) (rc : ExecutionResult),
      executeNode R c stdin k = (k1, e1, rc) →
      ((rc.status = 0 →
          executeNode R (.ifElse c tb eb none bg) stdin k =
            (match execBranch R tb stdin k1 with
             | (k2, e2, rb) => ({ k2 with lastExitStatus := rb.status }, e1 ++ e2, rb))
        ∧ executeNode R (.ifThen c tb none bg) stdin k =
            (match execBranch R tb stdin k1 with
             | (k2, e2, rb) => ({ k2 with lastExitStatus := rb.status }, e1 ++ e2, rb)))
       ∧ (rc.status ≠ 0 →
          executeNode R (.ifElse c tb eb none bg) stdin k =
            (match execBranch R eb stdin k1 with
             | (k2, e2, rb) => ({ k2 with lastExitStatus := rb.status }, e1 ++ e2, rb)))
       ∧ (rc.status ≠ 0 →
          executeNode R (.ifThen c tb none bg) stdin k =
            ({ k1 with lastExitStatus := 0 }, e1, ⟨"", 0⟩))) := by
  intro R c tb eb bg stdin k k1 e1 rc hc
  refine ⟨?_, ?_, ?_⟩
  · intro h0
    rcases hb : execBranch R tb stdin k1 with ⟨k2, e2, rb⟩
    constructor
    · simp only [executeNode, hc, h0, if_pos, hb]
      rfl
    · simp only [executeNode, hc, h0, if_pos, hb]
      rfl
  · intro h0
    rcases hb : execBranch R eb stdin k1 with ⟨k2, e2, rb⟩
    simp only [executeNode, hc, if_neg h0, hb]
    rfl
  · intro h0
    simp only [executeNode, hc, if_neg h0]
    rfl

/-- Witness for ifStatement_spec: a failed condition (unknown command,
status 127) selects the else branch, yielding its output and status 0. -/
theorem ifStatement_spec_witness :
    executeNode stdRegistry
      (.ifElse (.command "zzz" [] none false)
        (.cons (.command "echo" ["A"] none false) .nil)
        (.cons (.command "echo" ["B"] none false) .nil) none false) none kern0 =
      (⟨"/", [], 0, emptyFS, false⟩, "", ⟨"B\n", 0⟩) := by
  have h := ifStatement_spec stdRegistry (.command "zzz" [] none false)
    (.cons (.command "echo" ["A"] none false) .nil)
    (.cons (.command "echo" ["B"] none false) .nil) false none kern0
    ⟨"/", [], 127, emptyFS, false⟩ "" ⟨"command not found: zzz\n", 127⟩ rfl
  exact (h.2.1 (by decide)).trans (by rfl)

/-- C4: every node's evaluation routes through finishNode (the node's own
result is computed first, then the redirection is applied, then
lastExitStatus is set); finishNode with a redirection applies
applyRedirect; applyRedirect resolves the file against the cwd, writes the
concatenation in append mode (a missing file reading as empty) or the
stdout alone in overwrite mode, blanks the outward stdout on success and
preserves the status, and on a write failure surfaces an error line on the
ambient sink and forces status 1; the spec example writes hi then appends
bye. -/
theorem redirection_spec :
    (∀ (R : Registry) (n : ASTNode) (stdin : Option String) (k : Kern),
      ∃ c, executeNode R n stdin k = finishNode n c)
    ∧ (∀ (n : ASTNode) (red : Redirection) (k1 : Kern) (e1 : String) (r1 : ExecutionResult),
        n.redirection = some red →
        finishNode n (k1, e1, r1) =
          (match applyRedirect red k1 e1 r1 with
           | (k2, e2, r2) => ({ k2 with lastExitStatus := r2.status }, e2, r2)))
    ∧ (∀ (red : Redirection) (k : Kern) (e : String) (r : ExecutionResult),
        red.mode = .append →
        k.fs.writeFail (resolvePath red.file k.cwd) = none →
        applyRedirect red k e r =
          ({ k with fs := ⟨setAssoc k.fs.files (resolvePath red.file k.cwd)
              (((k.fs.read (resolvePath red.file k.cwd)).getD "") ++ r.stdout),
              k.fs.writeFail⟩ }, e, ⟨"", r.status⟩))
    ∧ (∀ (red : Redirection) (k : Kern) (e : String) (r : ExecutionResult),
        red.mode = .overwrite →
        k.fs.writeFail (resolvePath red.file k.cwd) = none →
        applyRedirect red k e r =
          ({ k with fs := ⟨setAssoc k.fs.files (resolvePath red.file k.cwd) r.stdout,
              k.fs.writeFail⟩ }, e, ⟨"", r.status⟩))
    ∧ (∀ (red : Redirection) (k : Kern) (e : String) (r : ExecutionResult) (msg : String),
        k.fs.writeFail (resolvePath red.file k.cwd) = some msg →
        applyRedirect red k e r =
          (k, e ++ "-qrx: " ++ red.file ++ ": " ++ msg ++ "\n", ⟨r.stdout, 1⟩))
    ∧ (parse "echo hi > /f" =
        [.command "echo" ["hi"] (some ⟨RedirMode.overwrite, "/f"⟩) false]
       ∧ parse "echo bye >> /f" =
        [.command "echo" ["bye"] (some ⟨RedirMode.append, "/f"⟩) false]
       ∧ ((executeNode stdRegistry (.command "echo" ["bye"] (some ⟨RedirMode.append, "/f"⟩) false) none
            (executeNode stdRegistry (.command "echo" ["hi"] (some ⟨RedirMode.overwrite, "/f"⟩) false) none
              kern0).1).1).fs.read "/f" = some "hi\nbye\n"
       ∧ (executeNode stdRegistry (.command "echo" ["hi"] (some ⟨RedirMode.overwrite, "/f"⟩) false)
            none kern0).2.2.stdout = "") := by
  refine ⟨?_, ?_, ?_, ?_, ?_, by rfl, by rfl, by rfl, by rfl⟩
  · intro R n stdin k
    cases n <;> (simp only [executeNode]; exact ⟨_, rfl⟩)
  · intro n red k1 e1 r1 h
    simp only [finishNode, h]
  · intro red k e r hm hf
    simp only [applyRedirect, FSModel.writeF, hm, hf]
  · intro red k e r hm hf
    simp only [applyRedirect, FSModel.writeF, hm, hf]
  · intro red k e r msg hf
    simp only [applyRedirect, FSModel.writeF, hf]

/-- Witness for redirection_spec: appending to an existing file
concatenates, clears the outward stdout, and keeps the status. -/
theorem redirection_spec_witness :
    applyRedirect ⟨RedirMode.append, "/f"⟩
      { kern0 with fs := ⟨[("/f", "hi\n")], fun _ => none⟩ } "" ⟨"bye\n", 0⟩ =
      ({ kern0 with fs := ⟨[("/f", "hi\nbye\n")], fun _ => none⟩ }, "", ⟨"", 0⟩) := by
  have h := redirection_spec.2.2.1 ⟨RedirMode.append, "/f"⟩
    { kern0 with fs := ⟨[("/f", "hi\n")], fun _ => none⟩ } "" ⟨"bye\n", 0⟩ rfl rfl
  exact h.trans (by rfl)

/-- Amended C8: a thrown command error is caught at the dispatch boundary,
rendered with the -qrx prefix as -qrx: name: message through the captured
sink, and yields status 1; at the node level the message is the captured
stdout, the exception does not escape, and the currentProcess slot is
cleared after every command invocation. -/
theorem commandError_spec :
    (∀ (R : Registry) (name : String) (impl : CmdImpl) (args : List String)
       (stdin : Option String) (k k1 : Kern) (w msg : String),
      R.lookup name = some impl →
      name ≠ "" →
      (assignMatch name = none ∨ args ≠ []) →
      impl.run { k with currentProcess := true } (expandArgs args k.lastExitStatus) stdin
        = (k1, w, .error msg) →
      executeSingleCommand R name args stdin k =
        ({ k1 with currentProcess := false },
          w ++ "-qrx: " ++ name ++ ": " ++ msg ++ "\n", 1))
    ∧ (∀ (R : Registry) (name : String) (impl : CmdImpl) (args : List String)
       (stdin : Option String) (k k1 : Kern) (w msg : String),
      R.lookup name = some impl →
      name ≠ "" →
      (assignMatch name = none ∨ args ≠ []) →
      impl.run { k with currentProcess := true } (expandArgs args k.lastExitStatus) stdin
        = (k1, w, .error msg) →
      executeNode R (.command name args none false) stdin k =
        ({ k1 with currentProcess := false, lastExitStatus := 1 }, "",
          ⟨w ++ "-qrx: " ++ name ++ ": " ++ msg ++ "\n", 1⟩))
    ∧ (∀ (R : Registry) (name : String) (args : List String) (red : Option Redirection)
        (bg : Bool) (stdin : Option String) (k : Kern),
        ((executeNode R (.command name args red bg) stdin k).1).currentProcess = false) := by
  have hsingle : ∀ (R : Registry) (name : String) (impl : CmdImpl) (args : List String)
      (stdin : Option String) (k k1 : Kern) (w msg : String),
      R.lookup name = some impl →
      name ≠ "" →
      (assignMatch name = none ∨ args ≠ []) →
      impl.run { k with currentProcess := true } (expandArgs args k.lastExitStatus) stdin
        = (k1, w, .error msg) →
      executeSingleCommand R name args stdin k =
        ({ k1 with currentProcess := false },
          w ++ "-qrx: " ++ name ++ ": " ++ msg ++ "\n", 1) := by
    intro R name impl args stdin k k1 w msg hlook hname hdisp hrun
    unfold executeSingleCommand
    rw [if_neg hname]
    have hdone : dispatchCommand R name (expandArgs args k.lastExitStatus) stdin k =
        ({ k1 with currentProcess := false },
          w ++ "-qrx: " ++ name ++ ": " ++ msg ++ "\n", 1) := by
      unfold dispatchCommand
      simp only [hlook, hrun]
    rcases ham : assignMatch name with _ | ⟨v, val⟩
    · exact hdone
    · rcases hdisp with hd | hd
      · rw [ham] at hd; exact absurd hd (by simp)
      · exact (if_neg (by rw [expandArgs_isEmpty]; simpa using hd)).trans hdone
  refine ⟨hsingle, ?_, ?_⟩
  · intro R name impl args stdin k k1 w msg hlook hname hdisp hrun
    have h1 := hsingle R name impl args stdin { k with currentProcess := true } k1 w msg
      hlook hname hdisp hrun
    simp only [executeNode, h1]
    rfl
  · intro R name args red bg stdin k
    rcases hsc : executeSingleCommand R name args stdin { k with currentProcess := true }
      with ⟨k1, w, st⟩
    simp only [executeNode, hsc]
    cases red with
    | none => simp [finishNode, ASTNode.redirection]
    | some rd =>
      simp only [finishNode, ASTNode.redirection]
      rcases har : applyRedirect rd { k1 with currentProcess := false } ""
        ⟨if bg && (some rd).isNone then "" else w, st⟩ with ⟨k2, e2, r2⟩
      have hcp := applyRedirect_currentProcess rd { k1 with currentProcess := false } ""
        ⟨if bg && (some rd).isNone then "" else w, st⟩
      rw [har] at hcp
      simpa using hcp

/-- Counterexample to C8 as stated: the rendered line is prefixed with
-qrx and so is not the bare name-colon-message text. -/
theorem commandError_claim_cex :
    (executeSingleCommand boomRegistry "c" [] none kern0).2.1 = "-qrx: c: boom\n"
    ∧ "-qrx: c: boom\n" ≠ "c: boom\n" ∧ "-qrx: c: boom\n" ≠ "c: boom" :=
  ⟨rfl, by decide, by decide⟩

/-- Witness for commandError_spec around the throwing command. -/
theorem commandError_spec_witness :
    executeSingleCommand boomRegistry "c" [] none kern0 =
      ({ kern0 with currentProcess := false }, "-qrx: c: boom\n", 1) := by
  have h := commandError_spec.1 boomRegistry "c" boomImpl [] none kern0
    { kern0 with currentProcess := true } "" "boom" rfl (by decide) (Or.inl rfl) rfl
  exact h.trans (by rfl)

/-- Amended C9: a nonempty command name that is not an assignment
expression, matches no registry entry, and is not help or clear yields
status 127 and the command-not-found message; at the node level the message
is the captured stdout. -/
theorem commandNotFound_spec :
    ∀ (R : Registry) (name : String) (args : List String) (stdin : Option String) (k : Kern),
      R.lookup name = none →
      name ≠ "help" → name ≠ "clear" → name ≠ "" →
      (assignMatch name = none ∨ args ≠ []) →
      executeSingleCommand R name args stdin k =
        (k, "command not found: " ++ name ++ "\n", 127)
      ∧ executeNode R (.command name args none false) stdin k =
          ({ k with currentProcess := false, lastExitStatus := 127 }, "",
            ⟨"command not found: " ++ name ++ "\n", 127⟩) := by
  intro R name args stdin k hlook hhelp hclear hname hdisp
  have hsingle : ∀ k' : Kern, executeSingleCommand R name args stdin k' =
      (k', "command not found: " ++ name ++ "\n", 127) := by
    intro k'
    unfold executeSingleCommand
    rw [if_neg hname]
    have hdone : dispatchCommand R name (expandArgs args k'.lastExitStatus) stdin k' =
        (k', "command not found: " ++ name ++ "\n", 127) := by
      unfold dispatchCommand
      simp only [hlook]
      unfold handleBuiltins
      rw [if_neg hhelp, if_neg hclear, if_neg hname]
    rcases ham : assignMatch name with _ | ⟨v, val⟩
    · exact hdone
    · rcases hdisp with hd | hd
      · rw [ham] at hd; exact absurd hd (by simp)
      · exact (if_neg (by rw [expandArgs_isEmpty]; simpa using hd)).trans hdone
  refine ⟨hsingle k, ?_⟩
  simp only [executeNode, hsingle { k with currentProcess := true }]
  rfl

/-- Witness for commandNotFound_spec on the spec's unknown command. -/
theorem commandNotFound_spec_witness :
    executeSingleCommand ([] : Registry) "zzz" [] none kern0 =
      (kern0, "command not found: zzz\n", 127) :=
  (commandNotFound_spec [] "zzz" [] none kern0 rfl (by decide) (by decide) (by decide)
    (Or.inl rfl)).1

/-- Counterexample to C9 as stated: an assignment-shaped name with no
arguments matches no registry entry and none of the builtins, yet evaluates
as an assignment with status 0 and no message. -/
theorem commandNotFound_claim_cex :
    (executeSingleCommand ([] : Registry) "A=1" [] none kern0).2.2 = 0
    ∧ (executeSingleCommand ([] : Registry) "A=1" [] none kern0).2.1 = ""
    ∧ ¬ ((0 : Int) = 127) :=
  ⟨rfl, rfl, by decide⟩

/-- C1 (driver modelled from the spec, suppression from the source): a
background statement is not awaited: the driver emits the job-id
acknowledgement, bumps the counter, records the task as pending and
proceeds with an unchanged kernel state; a background command node without
redirection captures empty stdout (its writes are suppressed); completing a
background task surfaces only ambient sink text, never the captured stdout,
and a carried redirection has already written the output to storage. -/
theorem background_spec :
    (∀ (R : Registry) (n : ASTNode) (rest : List ASTNode) (d : DriverState),
      n.background = true →
      runDriver R (n :: rest) d =
        runDriver R rest
          { d with
            term := d.term ++ "[" ++ toString (d.jobCounter + 1) ++ "]\n",
            jobCounter := d.jobCounter + 1,
            pending := d.pending ++ [n] })
    ∧ (∀ (R : Registry) (name : String) (args : List String) (stdin : Option String) (k : Kern),
        (executeNode R (.command name args none true) stdin k).2.2.stdout = "")
    ∧ (∀ (R : Registry) (n : ASTNode) (k : Kern),
        (completeBackground R n k).2 = (executeNode R n none k).2.1)
    ∧ ((completeBackground stdRegistry
          (.command "echo" ["hi"] (some ⟨RedirMode.overwrite, "/f"⟩) true) kern0).1.fs.read "/f"
        = some "hi\n"
       ∧ (completeBackground stdRegistry
          (.command "echo" ["hi"] (some ⟨RedirMode.overwrite, "/f"⟩) true) kern0).2 = ""
       ∧ (completeBackground stdRegistry (.command "echo" ["hi"] none true) kern0).2 = "") := by
  refine ⟨?_, ?_, ?_, by rfl, by rfl, by rfl⟩
  · intro R n rest d hbg
    simp [runDriver, runStatement, hbg]
  · intro R name args stdin k
    rcases hsc : executeSingleCommand R name args stdin { k with currentProcess := true }
      with ⟨k1, w, st⟩
    simp only [executeNode, hsc]
    rfl
  · intro R n k
    rcases h : executeNode R n none k with ⟨k1, e1, r1⟩
    simp [completeBackground, h]

/-- Witness for background_spec on a concrete background statement. -/
theorem background_spec_witness :
    runDriver stdRegistry [ASTNode.command "sleep" ["5"] none true]
      ⟨kern0, "", 0, []⟩ =
      ⟨kern0, "[1]\n", 1, [ASTNode.command "sleep" ["5"] none true]⟩ := by
  have h := background_spec.1 stdRegistry (.command "sleep" ["5"] none true) []
    ⟨kern0, "", 0, []⟩ rfl
  exact h.trans (by rfl)

/-! ## Lemmas: parser exhaustion at end of input -/

theorem skipWs_atEnd (l : List Char) (p : Nat) (h : l.length ≤ p) :
    skipWs l p = p := by
  simp [skipWs, List.drop_eq_nil_of_le h]

theorem pIdentifier_not_reserved (l : List Char) (p m : Nat) (s : String) (q : Nat)
    (h : pIdentifier l p = (m, some (s, q))) :
    reservedKeywords.contains s = false := by
  unfold pIdentifier at h
  rcases hb : pBareword l p with ⟨mb, rb⟩
  rw [hb] at h
  cases rb with
  | none => simp at h
  | some pr =>
    obtain ⟨s1, q1⟩ := pr
    simp only at h
    split at h
    · simp at h
      obtain ⟨-, hs, -⟩ := h
      subst hs
      decide
    · next hcont =>
      simp at h
      obtain ⟨_, hs, _⟩ := h
      subst hs
      simpa using hcont

theorem setRedirection_reservedFree (n : ASTNode) (r : Option Redirection) :
    reservedFreeN (n.setRedirection r) = reservedFreeN n := by
  cases n <;> rfl

theorem setBackground_reservedFree (n : ASTNode) (b : Bool) :
    reservedFreeN (n.setBackground b) = reservedFreeN n := by
  cases n <;> rfl

theorem ofList_reservedFree (xs : List ASTNode)
    (h : ∀ x ∈ xs, reservedFreeN x = true) :
    reservedFreeL (ofList xs) = true := by
  induction xs with
  | nil => rfl
  | cons a t ih =>
    simp only [ofList, reservedFreeL, Bool.and_eq_true]
    exact ⟨h a (by simp), ih (fun x hx => h x (List.mem_cons_of_mem a hx))⟩

theorem pCommand_reservedFree (l : List Char) (fuel p m : Nat) (n : ASTNode) (e : Nat)
    (h : pCommand l fuel p = (m, some (n, e))) : reservedFreeN n = true := by
  cases fuel with
  | zero => simp [pCommand] at h
  | succ fuel =>
    simp only [pCommand] at h
    rcases hid : pIdentifier l p with ⟨mi, ri⟩
    rw [hid] at h
    cases ri with
    | none => simp at h
    | some pr =>
      obtain ⟨name, p1⟩ := pr
      have hfree : reservedKeywords.contains name = false :=
        pIdentifier_not_reserved l p mi name p1 hid
      simp only at h
      rcases hw : reqWs l p1 with _ | q
      · simp only [hw] at h
        simp at h
        obtain ⟨_, hn, _⟩ := h
        rw [← hn]
        simp [reservedFreeN]
        simpa using hfree
      · simp only [hw] at h
        rcases ha : pArgList l fuel q with ⟨ma, ra⟩
        simp only [ha] at h
        cases ra with
        | none =>
          simp at h
          obtain ⟨_, hn, _⟩ := h
          rw [← hn]
          simp [reservedFreeN]
          simpa using hfree
        | some pr2 =>
          obtain ⟨args, p2⟩ := pr2
          simp at h
          obtain ⟨_, hn, _⟩ := h
          rw [← hn]
          simp [reservedFreeN]
          simpa using hfree

theorem freeC_map_cons (u : ASTNode) (cands : List (List ASTNode × Nat))
    (hu : reservedFreeN u = true)
    (hc : ∀ c ∈ cands, ∀ x ∈ c.1, reservedFreeN x = true) :
    ∀ c ∈ cands.map (fun c => (u :: c.1, c.2)), ∀ x ∈ c.1, reservedFreeN x = true := by
  intro c hmem x hx
  obtain ⟨c0, hc0, rfl⟩ := List.mem_map.mp hmem
  rcases List.mem_cons.mp hx with h1 | h1
  · rw [h1]; exact hu
  · exact hc c0 hc0 x h1
theorem parserReservedFree (l : List Char) : ∀ fuel : Nat,
    (∀ n p m r e, reservedFreeN n = true →
      pRedirLoop l fuel n p = (m, some (r, e)) → reservedFreeN r = true)
    ∧ (∀ cs m nl e, (∀ c ∈ cs, ∀ x ∈ c.1, reservedFreeN x = true) →
      pCloseParen l fuel cs = (m, some (nl, e)) → ∀ x ∈ nl, reservedFreeN x = true)
    ∧ (∀ p m n e, pCommandGroup l fuel p = (m, some (n, e)) → reservedFreeN n = true)
    ∧ (∀ n p m r e, reservedFreeN n = true →
      pPipeLoop l fuel n p = (m, some (r, e)) → reservedFreeN r = true)
    ∧ (∀ p m n e, pPipeline l fuel p = (m, some (n, e)) → reservedFreeN n = true)
    ∧ (∀ n p m r e, reservedFreeN n = true →
      pLogicLoop l fuel n p = (m, some (r, e)) → reservedFreeN r = true)
    ∧ (∀ cond cs m n e, reservedFreeN cond = true →
      (∀ c ∈ cs, ∀ x ∈ c.1, reservedFreeN x = true) →
      pFiTail l fuel cond cs = (m, some (n, e)) → reservedFreeN n = true)
    ∧ (∀ cond tnl cs m n e, reservedFreeN cond = true →
      (∀ x ∈ tnl, reservedFreeN x = true) →
      (∀ c ∈ cs, ∀ x ∈ c.1, reservedFreeN x = true) →
      pElseTail l fuel cond tnl cs = (m, some (n, e)) → reservedFreeN n = true)
    ∧ (∀ cond cs m n e, reservedFreeN cond = true →
      (∀ c ∈ cs, ∀ x ∈ c.1, reservedFreeN x = true) →
      pElseHead l fuel cond cs = (m, some (n, e)) → reservedFreeN n = true)
    ∧ (∀ p m n e, pIfRule1 l fuel p = (m, some (n, e)) → reservedFreeN n = true)
    ∧ (∀ p m n e, pIfRule2 l fuel p = (m, some (n, e)) → reservedFreeN n = true)
    ∧ (∀ p m n e, pIfStmt l fuel p = (m, some (n, e)) → reservedFreeN n = true)
    ∧ (∀ p m n e, pLogicalSeq l fuel p = (m, some (n, e)) → reservedFreeN n = true)
    ∧ (∀ p m n e, pCommandUnit l fuel p = (m, some (n, e)) → reservedFreeN n = true)
    ∧ (∀ p m cs, pCommandList l fuel p = (m, cs) →
      ∀ c ∈ cs, ∀ x ∈ c.1, reservedFreeN x = true)
    ∧ (∀ p m cs, pCLTail l fuel p = (m, cs) →
      ∀ c ∈ cs, ∀ x ∈ c.1, reservedFreeN x = true)
    ∧ (∀ r m cs, pSemiCont l fuel r = (m, cs) →
      ∀ c ∈ cs, ∀ x ∈ c.1, reservedFreeN x = true) := by
  intro fuel
  induction fuel with
  | zero =>
    refine ⟨?_, ?_, ?_, ?_, ?_, ?_, ?_, ?_, ?_, ?_, ?_, ?_, ?_, ?_, ?_, ?_, ?_⟩
    · intro n p m r e hn h
      simp [pRedirLoop] at h
      obtain ⟨-, hr, -⟩ := h
      rw [← hr]; exact hn
    · intro cs m nl e _ h; simp [pCloseParen] at h
    · intro p m n e h; simp [pCommandGroup] at h
    · intro n p m r e hn h
      simp [pPipeLoop] at h
      obtain ⟨-, hr, -⟩ := h
      rw [← hr]; exact hn
    · intro p m n e h; simp [pPipeline] at h
    · intro n p m r e hn h
      simp [pLogicLoop] at h
      obtain ⟨-, hr, -⟩ := h
      rw [← hr]; exact hn
    · intro cond cs m n e _ _ h; simp [pFiTail] at h
    · intro cond tnl cs m n e _ _ _ h; simp [pElseTail] at h
    · intro cond cs m n e _ _ h; simp [pElseHead] at h
    · intro p m n e h; simp [pIfRule1] at h
    · intro p m n e h; simp [pIfRule2] at h
    · intro p m n e h; simp [pIfStmt] at h
    · intro p m n e h; simp [pLogicalSeq] at h
    · intro p m n e h; simp [pCommandUnit] at h
    · intro p m cs h
      simp [pCommandList] at h
      obtain ⟨-, hcs⟩ := h
      subst hcs; intro c hc; simp at hc
    · intro p m cs h
      simp [pCLTail] at h
      obtain ⟨-, hcs⟩ := h
      subst hcs; intro c hc; simp at hc
    · intro r m cs h
      simp [pSemiCont] at h
      obtain ⟨-, hcs⟩ := h
      subst hcs; intro c hc; simp at hc
  | succ fuel ih =>
    obtain ⟨ihRL, ihCP, ihCG, ihPLo, ihPL, ihLLo, ihFT, ihET, ihEH, ihR1, ihR2,
      ihIS, ihLS, ihCU, ihCL, ihCT, ihSC⟩ := ih
    refine ⟨?_, ?_, ?_, ?_, ?_, ?_, ?_, ?_, ?_, ?_, ?_, ?_, ?_, ?_, ?_, ?_, ?_⟩
    · -- pRedirLoop
      intro n p m r e hn h
      simp only [pRedirLoop] at h
      rcases hrd : pRedirect l (skipWs l p) with ⟨m1, _ | ⟨red, e1⟩⟩
      · simp only [hrd] at h
        simp at h
        obtain ⟨-, hr, -⟩ := h
        rw [← hr]; exact hn
      · simp only [hrd] at h
        rcases hrec : pRedirLoop l fuel (n.setRedirection (some red)) e1 with ⟨m2, r2⟩
        simp only [hrec] at h
        simp at h
        obtain ⟨-, hr2⟩ := h
        exact ihRL (n.setRedirection (some red)) e1 m2 r e
          (by rw [setRedirection_reservedFree]; exact hn) (by rw [hrec, hr2])
    · -- pCloseParen
      intro cs m nl e hcs h
      cases cs with
      | nil => simp [pCloseParen] at h
      | cons hd rest =>
        obtain ⟨nl1, e1⟩ := hd
        simp only [pCloseParen] at h
        split at h
        · simp at h
          obtain ⟨-, hnl, -⟩ := h
          rw [← hnl]
          exact fun x hx => hcs (nl1, e1) (by simp) x hx
        · rcases hrec : pCloseParen l fuel rest with ⟨m2, r2⟩
          simp only [hrec] at h
          simp at h
          obtain ⟨-, hr2⟩ := h
          exact ihCP rest m2 nl e (fun c hc => hcs c (List.mem_cons_of_mem _ hc))
            (by rw [hrec, hr2])
    · -- pCommandGroup
      intro p m n e h
      simp only [pCommandGroup] at h
      rcases hc : pCommand l fuel p with ⟨mc, _ | ⟨n1, p1⟩⟩
      · simp only [hc] at h
        split at h
        · rcases hcl : pCommandList l fuel (skipWs l (p + 1)) with ⟨m2, cands⟩
          simp only [hcl] at h
          rcases hcp : pCloseParen l fuel cands with ⟨m3, _ | ⟨nl, e1⟩⟩
          · simp only [hcp] at h
            simp at h
          · simp only [hcp] at h
            rcases hrl : pRedirLoop l fuel (ASTNode.group (ofList nl) none false) e1
              with ⟨m4, r4⟩
            simp only [hrl] at h
            simp at h
            obtain ⟨-, hr⟩ := h
            have hnl : ∀ x ∈ nl, reservedFreeN x = true :=
              ihCP cands m3 nl e1 (ihCL _ m2 cands hcl) hcp
            have hgroup : reservedFreeN (ASTNode.group (ofList nl) none false) = true := by
              simp [reservedFreeN, ofList_reservedFree nl hnl]
            exact ihRL _ e1 m4 n e hgroup (by rw [hrl, hr])
        · simp at h
      · simp only [hc] at h
        rcases hrl : pRedirLoop l fuel n1 p1 with ⟨m2, r2⟩
        simp only [hrl] at h
        simp at h
        obtain ⟨-, hr⟩ := h
        exact ihRL n1 p1 m2 n e (pCommand_reservedFree l fuel p mc n1 p1 hc)
          (by rw [hrl, hr])
    · -- pPipeLoop
      intro n p m r e hn h
      simp only [pPipeLoop] at h
      split at h
      · rcases hcg : pCommandGroup l fuel (skipWs l (skipWs l p + 1)) with ⟨m1, _ | ⟨rhs, p2⟩⟩
        · simp only [hcg] at h
          simp at h
          obtain ⟨-, hr, -⟩ := h
          rw [← hr]; exact hn
        · simp only [hcg] at h
          rcases hrec : pPipeLoop l fuel (ASTNode.pipeline n rhs none false) p2
            with ⟨m2, r2⟩
          simp only [hrec] at h
          simp at h
          obtain ⟨-, hr⟩ := h
          have hfree : reservedFreeN (ASTNode.pipeline n rhs none false) = true := by
            simp [reservedFreeN, hn, ihCG _ _ _ _ hcg]
          exact ihPLo _ p2 m2 r e hfree (by rw [hrec, hr])
      · simp at h
        obtain ⟨-, hr, -⟩ := h
        rw [← hr]; exact hn
    · -- pPipeline
      intro p m n e h
      simp only [pPipeline] at h
      rcases hcg : pCommandGroup l fuel p with ⟨m1, _ | ⟨n1, p1⟩⟩
      · simp only [hcg] at h
        simp at h
      · simp only [hcg] at h
        rcases hrec : pPipeLoop l fuel n1 p1 with ⟨m2, r2⟩
        simp only [hrec] at h
        simp at h
        obtain ⟨-, hr⟩ := h
        exact ihPLo n1 p1 m2 n e (ihCG _ _ _ _ hcg) (by rw [hrec, hr])
    · -- pLogicLoop
      intro n p m r e hn h
      simp only [pLogicLoop] at h
      rcases hw : reqWs l p with _ | q
      · simp only [hw] at h
        simp at h
        obtain ⟨-, hr, -⟩ := h
        rw [← hr]; exact hn
      · simp only [hw] at h
        split at h
        · rcases hw2 : reqWs l (q + 2) with _ | q2
          · simp only [hw2] at h
            simp at h
            obtain ⟨-, hr, -⟩ := h
            rw [← hr]; exact hn
          · simp only [hw2] at h
            rcases hpp : pPipeline l fuel q2 with ⟨m1, _ | ⟨rhs, p2⟩⟩
            · simp only [hpp] at h
              simp at h
              obtain ⟨-, hr, -⟩ := h
              rw [← hr]; exact hn
            · simp only [hpp] at h
              rcases hrec : pLogicLoop l fuel (ASTNode.logicalAnd n rhs none false) p2
                with ⟨m2, r2⟩
              simp only [hrec] at h
              simp at h
              obtain ⟨-, hr⟩ := h
              have hfree : reservedFreeN (ASTNode.logicalAnd n rhs none false) = true := by
                simp [reservedFreeN, hn, ihPL _ _ _ _ hpp]
              exact ihLLo _ p2 m2 r e hfree (by rw [hrec, hr])
        · split at h
          · rcases hw2 : reqWs l (q + 2) with _ | q2
            · simp only [hw2] at h
              simp at h
              obtain ⟨-, hr, -⟩ := h
              rw [← hr]; exact hn
            · simp only [hw2] at h
              rcases hpp : pPipeline l fuel q2 with ⟨m1, _ | ⟨rhs, p2⟩⟩
              · simp only [hpp] at h
                simp at h
                obtain ⟨-, hr, -⟩ := h
                rw [← hr]; exact hn
              · simp only [hpp] at h
                rcases hrec : pLogicLoop l fuel (ASTNode.logicalOr n rhs none false) p2
                  with ⟨m2, r2⟩
                simp only [hrec] at h
                simp at h
                obtain ⟨-, hr⟩ := h
                have hfree : reservedFreeN (ASTNode.logicalOr n rhs none false) = true := by
                  simp [reservedFreeN, hn, ihPL _ _ _ _ hpp]
                exact ihLLo _ p2 m2 r e hfree (by rw [hrec, hr])
          · simp at h
            obtain ⟨-, hr, -⟩ := h
            rw [← hr]; exact hn
    · -- pFiTail
      intro cond cs m n e hcond hcs h
      cases cs with
      | nil => simp [pFiTail] at h
      | cons hd rest =>
        obtain ⟨nl1, e1⟩ := hd
        simp only [pFiTail] at h
        by_cases hsemi : litC l (skipWs l e1) ';' = true
        · rw [if_pos hsemi] at h
          rcases hfi : litStrM l (skipWs l (skipWs l e1 + 1)) ['f', 'i'] with ⟨mp, b⟩
          cases b with
          | true =>
            simp only [hfi] at h
            simp at h
            obtain ⟨-, hn, -⟩ := h
            rw [← hn]
            simp only [reservedFreeN, Bool.and_eq_true]
            exact ⟨hcond, ofList_reservedFree nl1 (fun x hx => hcs (nl1, e1) (by simp) x hx)⟩
          | false =>
            rcases hrec : pFiTail l fuel cond rest with ⟨m2, r2⟩
            simp only [hfi, hrec] at h
            simp at h
            obtain ⟨-, hr⟩ := h
            exact ihFT cond rest m2 n e hcond
              (fun c hc => hcs c (List.mem_cons_of_mem _ hc)) (by rw [hrec, hr])
        · rw [if_neg hsemi] at h
          rcases hrec : pFiTail l fuel cond rest with ⟨m2, r2⟩
          simp only [hrec] at h
          simp at h
          obtain ⟨-, hr⟩ := h
          exact ihFT cond rest m2 n e hcond
            (fun c hc => hcs c (List.mem_cons_of_mem _ hc)) (by rw [hrec, hr])
    · -- pElseTail
      intro cond tnl cs m n e hcond htnl hcs h
      cases cs with
      | nil => simp [pElseTail] at h
      | cons hd rest =>
        obtain ⟨nl1, e1⟩ := hd
        simp only [pElseTail] at h
        by_cases hsemi : litC l (skipWs l e1) ';' = true
        · rw [if_pos hsemi] at h
          rcases hfi : litStrM l (skipWs l (skipWs l e1 + 1)) ['f', 'i'] with ⟨mp, b⟩
          cases b with
          | true =>
            simp only [hfi] at h
            simp at h
            obtain ⟨-, hn, -⟩ := h
            rw [← hn]
            simp only [reservedFreeN, Bool.and_eq_true]
            exact ⟨⟨hcond, ofList_reservedFree tnl htnl⟩,
              ofList_reservedFree nl1 (fun x hx => hcs (nl1, e1) (by simp) x hx)⟩
          | false =>
            rcases hrec : pElseTail l fuel cond tnl rest with ⟨m2, r2⟩
            simp only [hfi, hrec] at h
            simp at h
            obtain ⟨-, hr⟩ := h
            exact ihET cond tnl rest m2 n e hcond htnl
              (fun c hc => hcs c (List.mem_cons_of_mem _ hc)) (by rw [hrec, hr])
        · rw [if_neg hsemi] at h
          rcases hrec : pElseTail l fuel cond tnl rest with ⟨m2, r2⟩
          simp only [hrec] at h
          simp at h
          obtain ⟨-, hr⟩ := h
          exact ihET cond tnl rest m2 n e hcond htnl
            (fun c hc => hcs c (List.mem_cons_of_mem _ hc)) (by rw [hrec, hr])
    · -- pElseHead
      intro cond cs m n e hcond hcs h
      cases cs with
      | nil => simp [pElseHead] at h
      | cons hd rest =>
        obtain ⟨nl1, e1⟩ := hd
        simp only [pElseHead] at h
        by_cases hsemi : litC l (skipWs l e1) ';' = true
        · rw [if_pos hsemi] at h
          rcases hel : litStrM l (skipWs l (skipWs l e1 + 1)) ['e', 'l', 's', 'e']
            with ⟨mp, b⟩
          cases b with
          | false =>
            rcases hrec : pElseHead l fuel cond rest with ⟨m2, r2⟩
            simp only [hel, hrec] at h
            simp at h
            obtain ⟨-, hr⟩ := h
            exact ihEH cond rest m2 n e hcond
              (fun c hc => hcs c (List.mem_cons_of_mem _ hc)) (by rw [hrec, hr])
          | true =>
            rcases hw : reqWs l (skipWs l (skipWs l e1 + 1) + 4) with _ | q7
            · rcases hrec : pElseHead l fuel cond rest with ⟨m2, r2⟩
              simp only [hel, hw, hrec] at h
              simp at h
              obtain ⟨-, hr⟩ := h
              exact ihEH cond rest m2 n e hcond
                (fun c hc => hcs c (List.mem_cons_of_mem _ hc)) (by rw [hrec, hr])
            · rcases hcl : pCommandList l fuel q7 with ⟨m2, cands2⟩
              rcases het : pElseTail l fuel cond nl1 cands2 with ⟨m3, _ | ⟨n3, e3⟩⟩
              · rcases hrec : pElseHead l fuel cond rest with ⟨m2b, r2⟩
                simp only [hel, hw, hcl, het, hrec] at h
                simp at h
                obtain ⟨-, hr⟩ := h
                exact ihEH cond rest m2b n e hcond
                  (fun c hc => hcs c (List.mem_cons_of_mem _ hc)) (by rw [hrec, hr])
              · simp only [hel, hw, hcl, het] at h
                simp at h
                obtain ⟨-, hn, -⟩ := h
                rw [← hn]
                exact ihET cond nl1 cands2 m3 n3 e3 hcond
                  (fun x hx => hcs (nl1, e1) (by simp) x hx)
                  (ihCL q7 m2 cands2 hcl) het
        · rw [if_neg hsemi] at h
          rcases hrec : pElseHead l fuel cond rest with ⟨m2, r2⟩
          simp only [hrec] at h
          simp at h
          obtain ⟨-, hr⟩ := h
          exact ihEH cond rest m2 n e hcond
            (fun c hc => hcs c (List.mem_cons_of_mem _ hc)) (by rw [hrec, hr])
    · -- pIfRule1
      intro p m n e h
      simp only [pIfRule1] at h
      rcases hif : litStrM l p ['i', 'f'] with ⟨mp, b⟩
      simp only [hif] at h
      cases b with
      | false => simp at h
      | true =>
        rcases hw : reqWs l (p + 2) with _ | q
        · simp only [hw] at h
          simp at h
        · simp only [hw] at h
          rcases hpp : pPipeline l fuel q with ⟨m1, _ | ⟨cond, p1⟩⟩
          · simp only [hpp] at h
            simp at h
          · simp only [hpp] at h
            split at h
            · rcases hth : litStrM l (skipWs l (skipWs l p1 + 1)) ['t', 'h', 'e', 'n']
                with ⟨mt, bt⟩
              simp only [hth] at h
              cases bt with
              | false => simp at h
              | true =>
                rcases hw2 : reqWs l (skipWs l (skipWs l p1 + 1) + 4) with _ | q4
                · simp only [hw2] at h
                  simp at h
                · simp only [hw2] at h
                  rcases hcl : pCommandList l fuel q4 with ⟨m2, cands⟩
                  simp only [hcl] at h
                  rcases hft : pFiTail l fuel cond cands with ⟨m3, _ | ⟨nf, ef⟩⟩
                  · simp only [hft] at h
                    simp at h
                  · simp only [hft] at h
                    simp at h
                    obtain ⟨-, hn, -⟩ := h
                    rw [← hn]
                    exact ihFT cond cands m3 nf ef (ihPL _ _ _ _ hpp)
                      (ihCL q4 m2 cands hcl) hft
            · simp at h
    · -- pIfRule2
      intro p m n e h
      simp only [pIfRule2] at h
      rcases hif : litStrM l p ['i', 'f'] with ⟨mp, b⟩
      simp only [hif] at h
      cases b with
      | false => simp at h
      | true =>
        rcases hw : reqWs l (p + 2) with _ | q
        · simp only [hw] at h
          simp at h
        · simp only [hw] at h
          rcases hpp : pPipeline l fuel q with ⟨m1, _ | ⟨cond, p1⟩⟩
          · simp only [hpp] at h
            simp at h
          · simp only [hpp] at h
            split at h
            · rcases hth : litStrM l (skipWs l (skipWs l p1 + 1)) ['t', 'h', 'e', 'n']
                with ⟨mt, bt⟩
              simp only [hth] at h
              cases bt with
              | false => simp at h
              | true =>
                rcases hw2 : reqWs l (skipWs l (skipWs l p1 + 1) + 4) with _ | q4
                · simp only [hw2] at h
                  simp at h
                · simp only [hw2] at h
                  rcases hcl : pCommandList l fuel q4 with ⟨m2, cands⟩
                  simp only [hcl] at h
                  rcases heh : pElseHead l fuel cond cands with ⟨m3, _ | ⟨nf, ef⟩⟩
                  · simp only [heh] at h
                    simp at h
                  · simp only [heh] at h
                    simp at h
                    obtain ⟨-, hn, -⟩ := h
                    rw [← hn]
                    exact ihEH cond cands m3 nf ef (ihPL _ _ _ _ hpp)
                      (ihCL q4 m2 cands hcl) heh
            · simp at h
    · -- pIfStmt
      intro p m n e h
      simp only [pIfStmt] at h
      rcases hr1 : pIfRule1 l fuel p with ⟨m1, _ | ⟨n1, e1⟩⟩
      · simp only [hr1] at h
        rcases hr2 : pIfRule2 l fuel p with ⟨m2, r2⟩
        simp only [hr2] at h
        simp at h
        obtain ⟨-, hr⟩ := h
        exact ihR2 p m2 n e (by rw [hr2, hr])
      · simp only [hr1] at h
        simp at h
        obtain ⟨-, hn1, -⟩ := h
        rw [← hn1]
        exact ihR1 p m1 n1 e1 hr1
    · -- pLogicalSeq
      intro p m n e h
      simp only [pLogicalSeq] at h
      rcases his : pIfStmt l fuel p with ⟨m1, _ | ⟨n1, p1⟩⟩
      · simp only [his] at h
        rcases hpp : pPipeline l fuel p with ⟨m2, _ | ⟨n1, p1⟩⟩
        · simp only [hpp] at h
          simp at h
        · simp only [hpp] at h
          rcases hll : pLogicLoop l fuel n1 p1 with ⟨m3, r3⟩
          simp only [hll] at h
          simp at h
          obtain ⟨-, hr⟩ := h
          exact ihLLo n1 p1 m3 n e (ihPL _ _ _ _ hpp) (by rw [hll, hr])
      · simp only [his] at h
        rcases hll : pLogicLoop l fuel n1 p1 with ⟨m2, r2⟩
        simp only [hll] at h
        simp at h
        obtain ⟨-, hr⟩ := h
        exact ihLLo n1 p1 m2 n e (ihIS _ _ _ _ his) (by rw [hll, hr])
    · -- pCommandUnit
      intro p m n e h
      simp only [pCommandUnit] at h
      rcases hls : pLogicalSeq l fuel p with ⟨m1, _ | ⟨n1, p1⟩⟩
      · simp only [hls] at h
        simp at h
      · simp only [hls] at h
        split at h
        · simp at h
          obtain ⟨-, hn, -⟩ := h
          rw [← hn, setBackground_reservedFree]
          exact ihLS _ _ _ _ hls
        · simp at h
          obtain ⟨-, hn, -⟩ := h
          rw [← hn]
          exact ihLS _ _ _ _ hls
    · -- pCommandList
      intro p m cs h
      simp only [pCommandList] at h
      rcases hcu : pCommandUnit l fuel p with ⟨m0, _ | ⟨u, p1⟩⟩
      · simp only [hcu] at h
        simp at h
        obtain ⟨-, hcs⟩ := h
        subst hcs; intro c hc; simp at hc
      · simp only [hcu] at h
        rcases hct : pCLTail l fuel p1 with ⟨m2, cands⟩
        simp only [hct] at h
        simp at h
        obtain ⟨-, hcs⟩ := h
        rw [← hcs]
        exact freeC_map_cons u cands (ihCU _ _ _ _ hcu) (ihCT p1 m2 cands hct)
    · -- pCLTail
      intro p m cs h
      simp only [pCLTail] at h
      split at h
      · rcases hsc : pSemiCont l fuel (skipWs l p + 1) with ⟨m1, cands⟩
        simp only [hsc] at h
        simp at h
        obtain ⟨-, hcs⟩ := h
        rw [← hcs]
        intro c hc
        rcases List.mem_cons.mp hc with h1 | h1
        · rw [h1]; intro x hx; simp at hx
        · exact ihSC _ m1 cands hsc c h1
      · simp at h
        obtain ⟨-, hcs⟩ := h
        rw [← hcs]
        intro c hc
        simp at hc
        rw [hc]; intro x hx; simp at hx
    · -- pSemiCont
      intro r m cs h
      simp only [pSemiCont] at h
      simp at h
      obtain ⟨-, hcs⟩ := h
      rw [← hcs]
      intro c hc
      rcases List.mem_cons.mp hc with h1 | h1
      · rw [h1]; intro x hx; simp at hx
      · rcases List.mem_append.mp h1 with h2 | h2
        · by_cases hcond : litC l (skipWs l r) ';' = true
          · rw [if_pos hcond] at h2
            exact ihSC _ _ _ rfl c h2
          · rw [if_neg hcond] at h2
            simp at h2
        · rcases hcu : pCommandUnit l fuel (skipWs l r) with ⟨mu, _ | ⟨u, p1⟩⟩
          · simp only [hcu] at h2
            simp at h2
          · rcases hct : pCLTail l fuel p1 with ⟨mt, cands⟩
            simp only [hcu, hct] at h2
            exact freeC_map_cons u cands (ihCU _ _ _ _ hcu) (ihCT p1 mt cands hct) c h2

/-- A complete parse returned by findComplete is one of the candidates. -/
theorem findComplete_mem (l : List Char) :
    ∀ (cs : List (List ASTNode × Nat)) (m0 m : Nat) (nl : List ASTNode),
    findComplete l cs m0 = (m, some nl) → ∃ e, (nl, e) ∈ cs := by
  intro cs
  induction cs with
  | nil => intro m0 m nl h; simp [findComplete] at h
  | cons hd rest ih =>
    intro m0 m nl h
    obtain ⟨nl1, e1⟩ := hd
    simp only [findComplete] at h
    split at h
    · simp at h
      obtain ⟨-, hnl⟩ := h
      exact ⟨e1, by rw [← hnl]; simp⟩
    · obtain ⟨e, he⟩ := ih _ _ _ h
      exact ⟨e, List.mem_cons_of_mem _ he⟩

/-- The command_list component of the reserved-keyword invariant. -/
theorem pCommandList_reservedFree (l : List Char) (fuel p m : Nat)
    (cs : List (List ASTNode × Nat)) (h : pCommandList l fuel p = (m, cs)) :
    ∀ c ∈ cs, ∀ x ∈ c.1, reservedFreeN x = true :=
  ((parserReservedFree l fuel).2.2.2.2.2.2.2.2.2.2.2.2.2.2.1) p m cs h

/-- Amended C2: the reserved words if, then, else and fi never appear in
the name field of any command node of any parse result (recursively
through every statement of the returned list): the IDENTIFIER
postprocessor maps them to the null name, so the word itself never becomes
a command name; the same words remain legal as ordinary argument words of
another command.  But a reserved word in command position is not rejected:
the line parses to a command node carrying the null name (represented by
the empty string), which the executor dispatches like any other command
node; with no name it prints its stdin and succeeds. -/
theorem reservedWords_spec :
    (∀ (line : String) (n : ASTNode), n ∈ parse line → reservedFreeN n = true)
    ∧ parse "echo if" = [ASTNode.command "echo" ["if"] none false]
    ∧ parse "if" = [ASTNode.command "" [] none false]
    ∧ (executeNode stdRegistry (ASTNode.command "" [] none false)
        (some "hello\n") kern0).2.2 = ⟨"hello\n", 0⟩ := by
  refine ⟨?_, by rfl, by rfl, by rfl⟩
  intro line n hn
  simp only [parse] at hn
  rcases hpl : parseLine line with msg | onl
  · simp only [hpl] at hn
    simp at hn
    rw [hn]
    rfl
  · cases onl with
    | none => simp only [hpl] at hn; simp at hn
    | some nodes =>
      simp only [hpl] at hn
      simp only [parseLine] at hpl
      rcases hpm : pMain line.data (parseFuel line.data.length) with ⟨m, r⟩
      simp only [hpm] at hpl
      cases r with
      | none =>
        split at hpl
        · simp_all
        · split at hpl <;> simp at hpl
      | some nodes2 =>
        simp at hpl
        simp only [pMain] at hpm
        rcases hcl : pCommandList line.data (parseFuel line.data.length)
          (skipWs line.data 0) with ⟨m1, cands⟩
        simp only [hcl] at hpm
        obtain ⟨e, he⟩ := findComplete_mem line.data cands m1 m nodes2 hpm
        rw [← hpl] at hn
        exact pCommandList_reservedFree line.data _ _ _ _ hcl (nodes2, e) he n hn

/-- Witness for reservedWords_spec: the node parsed from echo if carries no
reserved command name. -/
theorem reservedWords_spec_witness :
    reservedFreeN (ASTNode.command "echo" ["if"] none false) = true :=
  reservedWords_spec.1 "echo if" (ASTNode.command "echo" ["if"] none false)
    (by decide)

/-- Counterexample to C2 as stated: the line consisting of the reserved
word if alone is not rejected by the parser, and the single command node
it yields (null name) is dispatched by the executor, printing its stdin
with status 0. -/
theorem reservedWords_claim_cex :
    parse "if" ≠ []
    ∧ parse "if" = [ASTNode.command "" [] none false]
    ∧ (executeNode stdRegistry (ASTNode.command "" [] none false)
        (some "x\n") kern0).2.2 = ⟨"x\n", 0⟩ :=
  ⟨by decide, by rfl, by rfl⟩
